import Mathlib

/-! # Calculator: a verification development for `calculator.cpp`

The program is a recursive-descent calculator in the style of Stroustrup:
a `token_stream` with one slot of pushback over a character stream, the three
grammar functions `primary`, `term`, `expression`, a global table of
variables and the session loop `calculate`.

The embedding is shallow.  C++ `double` is kept abstract: every definition is
parametric in a type `D` carrying the operations the program uses on doubles
(`DoubleOps`), so the theorems hold for whatever those operations do,
rounding included.  `Dbl` is one executable instance, used to run the
definitions on concrete inputs.

State is passed explicitly.  A C++ exception is the outcome `Res.error`, which
carries the state at the point of the `throw` (the stream and the variable
table are mutated in place, so mutations made before the throw persist).
-/

namespace Calculator

/-! ## Doubles -/

/-- The operations on `double` that `calculator.cpp` uses. -/
class DoubleOps (D : Type) where
  /-- The double written as the decimal literal `m / 10^k` (`lit 314159 5` is `3.14159`). -/
  lit : Nat → Nat → D
  /-- Binary `+` on doubles. -/
  add : D → D → D
  /-- Binary `-` on doubles. -/
  sub : D → D → D
  /-- Binary `*` on doubles. -/
  mul : D → D → D
  /-- Binary `/` on doubles. -/
  div : D → D → D
  /-- Unary `-` on doubles. -/
  neg : D → D
  /-- The library function `std::fmod`. -/
  fmod : D → D → D
  /-- The value `std::numeric_limits<double>::infinity()`. -/
  infinity : D
  /-- The test `d == 0`. -/
  eqZero : D → Bool
  /-- The formatted extraction `input >> val` on the characters that remain:
  the value read and the characters left, or `none` when extraction fails. -/
  extract : List Char → Option (D × List Char)

/-! ## Outcomes -/

/-- Outcome of running a piece of the program from a state of type `σ`.
* `ok a s`: normal return of `a`, in state `s`;
* `error msg s`: a `std::runtime_error` with text `msg` was thrown, in state `s`;
* `undef s`: the program read a `char` that no extraction had written
  (`input >> ch` failed in `get`), which C++ leaves undefined;
* `fuel`: the recursion budget of the model was exhausted. -/
inductive Res (σ α : Type) where
  | ok (a : α) (s : σ)
  | error (msg : String) (s : σ)
  | undef (s : σ)
  | fuel
deriving DecidableEq, Repr

/-- Sequencing: run `k` on a normal return, propagate everything else. -/
def Res.bind {σ α β : Type} (r : Res σ α) (k : α → σ → Res σ β) : Res σ β :=
  match r with
  | .ok a s => k a s
  | .error msg s => .error msg s
  | .undef s => .undef s
  | .fuel => .fuel

/-- Run a sub-computation on a component of the state and write the
component back with `put`. -/
def Res.lift {τ σ α : Type} (put : τ → σ) (r : Res τ α) : Res σ α :=
  match r with
  | .ok a t => .ok a (put t)
  | .error msg t => .error msg (put t)
  | .undef t => .undef (put t)
  | .fuel => .fuel

/-! ## Tokens -/

/-- Kind of a token holding a floating-point number. -/
def number : Char := '8'
/-- Kind of the exit command. -/
def quit : Char := 'q'
/-- Kind of the print command. -/
def print : Char := ';'
/-- Kind of a variable name. -/
def name : Char := 'c'
/-- Kind of the assignment command. -/
def assign : Char := '='

/-- The class `token`: a kind, a value and a name. -/
structure token (D : Type) where
  kind : Char
  value : D
  name : String
deriving DecidableEq, Repr

section
variable {D : Type} [DoubleOps D]

/-- The constructor `token(char ch)`. -/
def token.ofChar (ch : Char) : token D :=
  { kind := ch, value := DoubleOps.lit 0 0, name := "" }

/-- The constructor `token(double val)`. -/
def token.ofDouble (val : D) : token D :=
  { kind := number, value := val, name := "" }

/-- The constructor `token(char ch, std::string n)`. -/
def token.named (ch : Char) (n : String) : token D :=
  { kind := ch, value := DoubleOps.lit 0 0, name := n }

end

/-- Prompt string. -/
def prompt : String := "> "
/-- Result string. -/
def result : String := "= "

/-! ## The character stream

`std::istream` is modelled by the list of characters still to be read.  The
program never clears the stream state, so once an extraction has failed no
character can be read any more: a failed stream is the empty list. -/

/-- The function `isspace` of the C locale. -/
def isspace (c : Char) : Bool :=
  c = ' ' || c = '\t' || c = '\n' || c = '\x0b' || c = '\x0c' || c = '\r'

/-- The function `isalpha` of the C locale. -/
def isalpha (c : Char) : Bool := c.isAlpha

/-- The function `isalnum` of the C locale. -/
def isalnum (c : Char) : Bool := c.isAlpha || c.isDigit

/-- Skipping of leading whitespace by a formatted extraction. -/
def skipws : List Char → List Char
  | [] => []
  | c :: cs => if isspace c then skipws cs else c :: cs

/-- The extraction `input >> ch` for a `char`: skip whitespace, read one
character; `none` when the stream is exhausted. -/
def readChar (input : List Char) : Option (Char × List Char) :=
  match skipws input with
  | [] => none
  | c :: cs => some (c, cs)

/-! ## The token stream -/

/-- The class `token_stream`. -/
structure token_stream (D : Type) where
  full : Bool
  buffer : token D
  input : List Char
deriving DecidableEq, Repr

section
variable {D : Type} [DoubleOps D]

/-- The constructor `token_stream(std::istream& is)`. -/
def token_stream.mk0 (is : List Char) : token_stream D :=
  { full := false, buffer := token.ofChar '\x00', input := is }

/-- The member `token_stream::putback`. -/
def token_stream.putback (ts : token_stream D) (t : token D) : Res (token_stream D) Unit :=
  if ts.full then .error "putback() into a full buffer" ts
  else .ok () { ts with buffer := t, full := true }

/-- The characters that select the first group of `case` labels in `get`. -/
def punctuation : List Char := ['(', ')', ';', 'q', '+', '-', '*', '/', '%']

/-- The characters that select the second group of `case` labels in `get`. -/
def numberStart : List Char := ['.', '0', '1', '2', '3', '4', '5', '6', '7', '8', '9']

/-- The condition of the identifier loop in `get`. -/
def identChar (c : Char) : Bool := isalnum c || c = '_'

/-- The part of `token_stream::get` that reads the character stream, from
`char ch; input >> ch;` on: the token and the characters left.  When
`input >> ch` fails, `ch` holds no value and the outcome is `undef`.  When
`input >> val` fails, `val` is zero and the stream has failed. -/
def lex (input : List Char) : Res (List Char) (token D) :=
  match readChar input with
  | none => .undef []
  | some (ch, rest) =>
    if ch ∈ punctuation then .ok (token.ofChar ch) rest
    else if ch ∈ numberStart then
      match DoubleOps.extract (ch :: rest) with
      | some (val, rest1) => .ok (token.ofDouble val) rest1
      | none => .ok (token.ofDouble (DoubleOps.lit 0 0)) []
    else if isalpha ch then
      .ok (token.named name (String.mk (ch :: rest.takeWhile identChar)))
        (rest.dropWhile identChar)
    else if ch = '=' then .ok (token.ofChar assign) rest
    else .error ("Bad token: " ++ String.singleton ch) rest

/-- The member `token_stream::get`. -/
def token_stream.get (ts : token_stream D) : Res (token_stream D) (token D) :=
  if ts.full then .ok ts.buffer { ts with full := false }
  else (lex ts.input).lift fun rest => { ts with input := rest }

/-- The loop `while (input >> ch) if (ch == c) return;` of `ignore`. -/
def ignoreLoop (c : Char) : List Char → List Char
  | [] => []
  | ch :: cs =>
    if isspace ch then ignoreLoop c cs
    else if ch = c then cs
    else ignoreLoop c cs

/-- The member `token_stream::ignore`. -/
def token_stream.ignore (ts : token_stream D) (c : Char) : token_stream D :=
  if ts.full && c == ts.buffer.kind then { ts with full := false }
  else { ts with full := false, input := ignoreLoop c ts.input }

end

/-! ## The variable table -/

/-- The type `std::map<std::string, double>`, as an association list with
at most one entry per key. -/
abbrev Vars (D : Type) := List (String × D)

/-- The lookup `m.find(k)`: the mapped value, or `none` for `m.end()`. -/
def Vars.find {D : Type} : Vars D → String → Option D
  | [], _ => none
  | (k1, v) :: m, k => if k1 = k then some v else Vars.find m k

/-- The assignment `m[k] = v`: overwrite the entry of `k`, or insert one. -/
def Vars.set {D : Type} : Vars D → String → D → Vars D
  | [], k, v => [(k, v)]
  | (k1, v1) :: m, k, v => if k1 = k then (k1, v) :: m else (k1, v1) :: Vars.set m k v

/-- The global `predefinedVals` as initialised at program start. -/
def predefinedVals {D : Type} [DoubleOps D] : Vars D :=
  [("e", DoubleOps.lit 271828 5), ("pi", DoubleOps.lit 314159 5)]

/-! ## The state of a session -/

/-- One item written to `std::cout`. -/
inductive Out (D : Type) where
  | text (s : String)
  | num (d : D)
  | endl
deriving DecidableEq, Repr

/-- Everything the grammar functions and the session loop read or write: the
token stream they are passed, the global `predefinedVals`, and what has
been written to `std::cout` and `std::cerr`. -/
structure Sys (D : Type) where
  ts : token_stream D
  vars : Vars D
  cout : List (Out D)
  cerr : List String
deriving DecidableEq, Repr

section
variable {D : Type} [DoubleOps D]

/-- The call `ts.get()` inside a session. -/
def Sys.get (s : Sys D) : Res (Sys D) (token D) :=
  s.ts.get.lift (fun ts1 => { s with ts := ts1 })

/-- The call `ts.putback(t)` inside a session. -/
def Sys.putback (s : Sys D) (t : token D) : Res (Sys D) Unit :=
  (s.ts.putback t).lift (fun ts1 => { s with ts := ts1 })

/-! ## The grammar functions

The functions are mutually recursive and contain loops, so the model gives
them a recursion budget: each call and each loop iteration uses one unit, and
the outcome is `Res.fuel` when the budget runs out. -/

mutual

/-- The function `primary`. -/
def primary : Nat → Sys D → Res (Sys D) D
  | 0, _ => .fuel
  | n + 1, s =>
    s.get.bind fun t s1 =>
      if t.kind = number then .ok t.value s1
      else if t.kind = name then
        s1.get.bind fun next s2 =>
          if next.kind = assign then
            (expression n s2).bind fun value s3 =>
              .ok value { s3 with vars := s3.vars.set t.name value }
          else
            (s2.putback next).bind fun _ s3 =>
              match s3.vars.find t.name with
              | some v => .ok v s3
              | none => .error ("Undefined variable: " ++ t.name) s3
      else if t.kind = '-' then
        (primary n s1).bind fun v s2 => .ok (DoubleOps.neg v) s2
      else if t.kind = '(' then
        (expression n s1).bind fun d s2 =>
          s2.get.bind fun t2 s3 =>
            if t2.kind ≠ ')' then .error "')' expected" s3
            else .ok d s3
      else .error "Primary expected" s1

/-- The loop of `term`, entered with the running value `left`. -/
def termLoop : Nat → D → Sys D → Res (Sys D) D
  | 0, _, _ => .fuel
  | n + 1, left, s =>
    s.get.bind fun t s1 =>
      if t.kind = '*' then
        (primary n s1).bind fun v s2 => termLoop n (DoubleOps.mul left v) s2
      else if t.kind = '/' then
        (primary n s1).bind fun d s2 =>
          if DoubleOps.eqZero d then
            .ok DoubleOps.infinity { s2 with cerr := s2.cerr ++ ["Error: Division by zero.\n"] }
          else termLoop n (DoubleOps.div left d) s2
      else
        (s1.putback t).bind fun _ s2 => .ok left s2

/-- The function `term`. -/
def term : Nat → Sys D → Res (Sys D) D
  | 0, _ => .fuel
  | n + 1, s => (primary n s).bind fun left s1 => termLoop n left s1

/-- The loop of `expression`, entered with the running value `left`. -/
def expressionLoop : Nat → D → Sys D → Res (Sys D) D
  | 0, _, _ => .fuel
  | n + 1, left, s =>
    s.get.bind fun t s1 =>
      if t.kind = '+' then
        (term n s1).bind fun v s2 => expressionLoop n (DoubleOps.add left v) s2
      else if t.kind = '-' then
        (term n s1).bind fun v s2 => expressionLoop n (DoubleOps.sub left v) s2
      else if t.kind = '%' then
        (primary n s1).bind fun d s2 =>
          if DoubleOps.eqZero d then .error "modulo by zero" s2
          else expressionLoop n (DoubleOps.fmod left d) s2
      else
        (s1.putback t).bind fun _ s2 => .ok left s2

/-- The function `expression`. -/
def expression : Nat → Sys D → Res (Sys D) D
  | 0, _ => .fuel
  | n + 1, s => (term n s).bind fun left s1 => expressionLoop n left s1

end

/-! ## The session loop -/

/-- The function `clean_up_mess`. -/
def clean_up_mess (s : Sys D) : Sys D :=
  { s with ts := s.ts.ignore print }

/-- The loop `while (t.kind() == print) t = ts.get();` of `calculate`. -/
def skipPrints : Nat → token D → Sys D → Res (Sys D) (token D)
  | 0, _, _ => .fuel
  | n + 1, t, s => if t.kind = print then s.get.bind fun t1 s1 => skipPrints n t1 s1 else .ok t s

/-- The body of the `try` block of `calculate`, up to the point where the
statement has been evaluated and printed.  It returns `true` when the loop
is to be left (the statement was `q`).  The output `result` is written before
`expression(ts)` is evaluated, as the operands of `<<` are sequenced. -/
def tryBlock (n : Nat) (s : Sys D) : Res (Sys D) Bool :=
  let s0 := { s with cout := s.cout ++ [Out.text prompt] }
  s0.get.bind fun t s1 =>
    (skipPrints n t s1).bind fun t1 s2 =>
      if t1.kind = quit then .ok true s2
      else
        (s2.putback t1).bind fun _ s3 =>
          let s4 := { s3 with cout := s3.cout ++ [Out.text result] }
          (expression n s4).bind fun v s5 =>
            .ok false { s5 with cout := s5.cout ++ [Out.num v, Out.endl] }

/-- The handler `catch (const std::runtime_error& e)` of `calculate`. -/
def handler (msg : String) (s : Sys D) : Sys D :=
  clean_up_mess { s with cerr := s.cerr ++ [msg ++ "\n"] }

/-- The function `calculate`. -/
def calculate : Nat → Sys D → Res (Sys D) Unit
  | 0, _ => .fuel
  | n + 1, s =>
    match tryBlock n s with
    | .ok true s1 => .ok () s1
    | .ok false s1 => calculate n s1
    | .error msg s1 => calculate n (handler msg s1)
    | .undef s1 => .undef s1
    | .fuel => .fuel

end

/-! ## An executable instance of the double operations

`Dbl` is an exact model of the doubles: the finite values are fractions in
lowest terms (no rounding, one zero), with the two infinities and a
not-a-number value.  It serves to run the definitions on concrete inputs
whose values a `double` represents exactly. -/

/-- A fraction `num / den`, kept in lowest terms with `den` positive. -/
structure Frac where
  num : Int
  den : Nat
deriving DecidableEq, Repr

namespace Frac

/-- The fraction `n / d` in lowest terms (`d` positive). -/
def norm (n : Int) (d : Nat) : Frac :=
  { num := n / (Nat.gcd n.natAbs d : Int), den := d / Nat.gcd n.natAbs d }

/-- Sum. -/
def add (a b : Frac) : Frac := norm (a.num * b.den + b.num * a.den) (a.den * b.den)

/-- Opposite. -/
def neg (a : Frac) : Frac := { num := -a.num, den := a.den }

/-- Product. -/
def mul (a b : Frac) : Frac := norm (a.num * b.num) (a.den * b.den)

/-- Quotient by a fraction other than zero. -/
def div (a b : Frac) : Frac := norm (a.num * b.den * b.num.sign) (a.den * b.num.natAbs)

/-- Integer part, rounding toward zero. -/
def trunc (a : Frac) : Int := a.num.tdiv a.den

/-- The integer `z` as a fraction. -/
def ofInt (z : Int) : Frac := { num := z, den := 1 }

end Frac

/-- Exact stand-in for `double`. -/
inductive Dbl where
  | fin (q : Frac)
  | pinf
  | ninf
  | nan
deriving DecidableEq, Repr

namespace Dbl

/-- The finite value `n`. -/
def ofNat (n : Nat) : Dbl := fin (Frac.ofInt n)

/-- Unary minus. -/
def neg : Dbl → Dbl
  | fin q => fin q.neg
  | pinf => ninf
  | ninf => pinf
  | nan => nan

/-- Addition. -/
def add : Dbl → Dbl → Dbl
  | fin a, fin b => fin (a.add b)
  | fin _, pinf => pinf
  | fin _, ninf => ninf
  | pinf, fin _ => pinf
  | ninf, fin _ => ninf
  | pinf, pinf => pinf
  | ninf, ninf => ninf
  | _, _ => nan

/-- Subtraction. -/
def sub (a b : Dbl) : Dbl := add a (neg b)

/-- The infinity whose sign is that of `z`, an integer other than zero. -/
def signedInf (z : Int) : Dbl := if 0 < z then pinf else ninf

/-- Multiplication. -/
def mul : Dbl → Dbl → Dbl
  | fin a, fin b => fin (a.mul b)
  | fin a, pinf => if a.num = 0 then nan else signedInf a.num
  | fin a, ninf => if a.num = 0 then nan else signedInf (-a.num)
  | pinf, fin b => if b.num = 0 then nan else signedInf b.num
  | ninf, fin b => if b.num = 0 then nan else signedInf (-b.num)
  | pinf, pinf => pinf
  | ninf, ninf => pinf
  | pinf, ninf => ninf
  | ninf, pinf => ninf
  | _, _ => nan

/-- Division. -/
def div : Dbl → Dbl → Dbl
  | fin a, fin b =>
    if b.num = 0 then (if a.num = 0 then nan else signedInf a.num) else fin (a.div b)
  | fin _, pinf => fin (Frac.ofInt 0)
  | fin _, ninf => fin (Frac.ofInt 0)
  | pinf, fin b => if 0 ≤ b.num then pinf else ninf
  | ninf, fin b => if 0 ≤ b.num then ninf else pinf
  | _, _ => nan

/-- The remainder of `std::fmod`: `a - b * trunc (a / b)`. -/
def fmod : Dbl → Dbl → Dbl
  | fin a, fin b =>
    if b.num = 0 then nan
    else fin (a.add (b.mul (Frac.ofInt (a.div b).trunc)).neg)
  | fin a, pinf => fin a
  | fin a, ninf => fin a
  | _, _ => nan

/-- The test `d == 0`. -/
def eqZero : Dbl → Bool
  | fin q => decide (q.num = 0)
  | _ => false

/-- The number written by a list of decimal digits. -/
def digitsVal (ds : List Char) : Nat :=
  ds.foldl (fun a c => 10 * a + (c.toNat - 48)) 0

/-- Extraction of a decimal literal: digits, then optionally a point and
digits, with a digit on at least one side of the point. -/
def extract (cs : List Char) : Option (Dbl × List Char) :=
  let ip := cs.takeWhile Char.isDigit
  match cs.dropWhile Char.isDigit with
  | '.' :: r2 =>
    let fp := r2.takeWhile Char.isDigit
    if ip = [] ∧ fp = [] then none
    else some (fin (Frac.norm (digitsVal (ip ++ fp)) (10 ^ fp.length)), r2.dropWhile Char.isDigit)
  | r1 => if ip = [] then none else some (ofNat (digitsVal ip), r1)

end Dbl

instance : DoubleOps Dbl where
  lit m k := Dbl.fin (Frac.norm m (10 ^ k))
  add := Dbl.add
  sub := Dbl.sub
  mul := Dbl.mul
  div := Dbl.div
  neg := Dbl.neg
  fmod := Dbl.fmod
  infinity := Dbl.pinf
  eqZero := Dbl.eqZero
  extract := Dbl.extract

/-- The state of a fresh session reading the text `input`. -/
def Sys.start {D : Type} [DoubleOps D] (input : String) : Sys D :=
  { ts := token_stream.mk0 input.data, vars := predefinedVals, cout := [], cerr := [] }

/-! ## Notions used to state the properties -/

/-- The outcome `r1` of a run with a larger budget agrees with the outcome
`r` of a run that did not exhaust its budget. -/
def Res.le {σ α : Type} (r r1 : Res σ α) : Prop := r ≠ .fuel → r1 = r

/-- Successive calls of `get()` from `ts` return the tokens `toks`, one after
the other, and leave the buffer empty and the characters `rest` unread. -/
def Reads {D : Type} [DoubleOps D] (ts : token_stream D) :
    List (token D) → List Char → Prop
  | [], rest => ts.full = false ∧ ts.input = rest
  | t :: toks, rest =>
    match ts.get with
    | .ok t1 ts1 => t1 = t ∧ Reads ts1 toks rest
    | _ => False

/-- The tokens `toks` are read one after the other from the characters `cs`,
leaving `rest`. -/
def Lexes {D : Type} [DoubleOps D] (cs : List Char) :
    List (token D) → List Char → Prop
  | [], rest => cs = rest
  | t :: toks, rest =>
    match (lex cs : Res (List Char) (token D)) with
    | .ok t1 cs1 => t1 = t ∧ Lexes cs1 toks rest
    | _ => False

/-- The three levels of the grammar of arithmetic expressions. -/
inductive Level where
  | prim
  | term
  | expr
deriving DecidableEq, Repr

/-- Well-formed expressions over numeric literals, the binary operators
`+ - * /`, parentheses and unary minus, by grammar level:

    Expression: Term | Expression "+" Term | Expression "-" Term
    Term:       Primary | Term "*" Primary | Term "/" Primary
    Primary:    Number | "(" Expression ")" | "-" Primary

The expressions built without the last production are those over numeric
literals, the binary operators and parentheses alone.  The left recursion
makes operators of equal precedence associate to the left, and the levels
make `*` and `/` bind tighter than `+` and `-`. -/
inductive Ast (D : Type) : Level → Type where
  | num (v : D) : Ast D .prim
  | paren (e : Ast D .expr) : Ast D .prim
  | neg (p : Ast D .prim) : Ast D .prim
  | ofPrim (p : Ast D .prim) : Ast D .term
  | mul (t : Ast D .term) (p : Ast D .prim) : Ast D .term
  | div (t : Ast D .term) (p : Ast D .prim) : Ast D .term
  | ofTerm (t : Ast D .term) : Ast D .expr
  | add (e : Ast D .expr) (t : Ast D .term) : Ast D .expr
  | sub (e : Ast D .expr) (t : Ast D .term) : Ast D .expr

section
variable {D : Type} [DoubleOps D]

/-- Reference evaluation of an expression: the arithmetic of the doubles
applied along the structure of the expression. -/
def Ast.value : {l : Level} → Ast D l → D
  | _, .num v => v
  | _, .paren e => e.value
  | _, .neg p => DoubleOps.neg p.value
  | _, .ofPrim p => p.value
  | _, .mul t p => DoubleOps.mul t.value p.value
  | _, .div t p => DoubleOps.div t.value p.value
  | _, .ofTerm t => t.value
  | _, .add e t => DoubleOps.add e.value t.value
  | _, .sub e t => DoubleOps.sub e.value t.value

/-- The token sequence of an expression. -/
def Ast.tokens : {l : Level} → Ast D l → List (token D)
  | _, .num v => [token.ofDouble v]
  | _, .paren e => token.ofChar '(' :: (e.tokens ++ [token.ofChar ')'])
  | _, .neg p => token.ofChar '-' :: p.tokens
  | _, .ofPrim p => p.tokens
  | _, .mul t p => t.tokens ++ token.ofChar '*' :: p.tokens
  | _, .div t p => t.tokens ++ token.ofChar '/' :: p.tokens
  | _, .ofTerm t => t.tokens
  | _, .add e t => e.tokens ++ token.ofChar '+' :: t.tokens
  | _, .sub e t => e.tokens ++ token.ofChar '-' :: t.tokens

/-- No division of the expression has a divisor whose value is zero. -/
def Ast.noZeroDivisor : {l : Level} → Ast D l → Bool
  | _, .num _ => true
  | _, .paren e => e.noZeroDivisor
  | _, .neg p => p.noZeroDivisor
  | _, .ofPrim p => p.noZeroDivisor
  | _, .mul t p => t.noZeroDivisor && p.noZeroDivisor
  | _, .div t p => t.noZeroDivisor && p.noZeroDivisor && !DoubleOps.eqZero p.value
  | _, .ofTerm t => t.noZeroDivisor
  | _, .add e t => e.noZeroDivisor && t.noZeroDivisor
  | _, .sub e t => e.noZeroDivisor && t.noZeroDivisor

/-- The run `f`, indexed by its budget, has outcome `r` for every budget from
some point on. -/
def Converges {σ α : Type} (f : Nat → Res σ α) (r : Res σ α) : Prop :=
  ∃ n, ∀ m, n ≤ m → f m = r

/-- The kinds of the binary operator tokens. -/
def operatorKinds : List Char := ['+', '-', '*', '/', '%']

end

section
variable {D : Type} [DoubleOps D]

/-- What the grammar functions do on the tokens of an expression, by level. -/
def Ast.Parsed : {l : Level} → Ast D l → Prop
  | .prim, p => ∀ (s : Sys D) (cs1 : List Char), Reads s.ts p.tokens cs1 →
      ∃ b, Converges (fun m => primary m s)
        (.ok p.value { s with ts := { full := false, buffer := b, input := cs1 } })
  | .term, t => ∀ (s : Sys D) (cs1 : List Char) (r : Res (Sys D) D), Reads s.ts t.tokens cs1 →
      (∀ b, Converges
        (fun m => termLoop m t.value { s with ts := { full := false, buffer := b, input := cs1 } })
        r) →
      Converges (fun m => term m s) r
  | .expr, e => ∀ (s : Sys D) (cs1 : List Char) (tk : token D) (cs2 : List Char)
      (r : Res (Sys D) D), Reads s.ts e.tokens cs1 → lex cs1 = .ok tk cs2 →
      tk.kind ≠ '*' → tk.kind ≠ '/' →
      Converges
        (fun m => expressionLoop m e.value
          { s with ts := { full := true, buffer := tk, input := cs2 } }) r →
      Converges (fun m => expression m s) r

end

/-- Executable form of `Reads`. -/
def readsB {D : Type} [DoubleOps D] [DecidableEq D] (ts : token_stream D) :
    List (token D) → List Char → Bool
  | [], rest => decide (ts.full = false ∧ ts.input = rest)
  | t :: toks, rest =>
    match ts.get with
    | .ok t1 ts1 => decide (t1 = t) && readsB ts1 toks rest
    | _ => false

/-- The state in which a run ended, when it ended by a return or a throw. -/
def Res.final {σ α : Type} : Res σ α → Option σ
  | .ok _ s => some s
  | .error _ s => some s
  | _ => none

/-- The expression `(0 - 1) / 0`. -/
def minusOneByZero : Ast Dbl .expr :=
  .ofTerm (.div (.ofPrim (.paren (.sub (.ofTerm (.ofPrim (.num (Dbl.ofNat 0))))
    (.ofPrim (.num (Dbl.ofNat 1)))))) (.num (Dbl.ofNat 0)))

/-- The expression `2 + 3 * (5 - 2)`. -/
def twoPlusThreeTimes : Ast Dbl .expr :=
  .add (.ofTerm (.ofPrim (.num (Dbl.ofNat 2))))
    (.mul (.ofPrim (.num (Dbl.ofNat 3)))
      (.paren (.sub (.ofTerm (.ofPrim (.num (Dbl.ofNat 5)))) (.ofPrim (.num (Dbl.ofNat 2))))))

/-- The text `(0 - 1) / 0;`. -/
def minusOneByZeroText : String := "(0 - 1) / 0;"

/-- The state in which `expression` returns on `minusOneByZeroText`. -/
def minusOneByZeroEnd : Sys Dbl :=
  { ts := { full := true, buffer := token.ofChar ';', input := [] }
    vars := predefinedVals
    cout := []
    cerr := ["Error: Division by zero.\n"] }

/-- The state of a fresh session that holds `t` in the buffer and has the
text `input` still to read. -/
def Sys.buffered {D : Type} [DoubleOps D] (t : token D) (input : String) : Sys D :=
  { ts := { full := true, buffer := t, input := input.data }
    vars := predefinedVals, cout := [], cerr := [] }

/-- The predefined names with their values as written in the source. -/
def predefinedLiterals {D : Type} [DoubleOps D] : List (String × D) :=
  [("pi", DoubleOps.lit 314159 5), ("e", DoubleOps.lit 271828 5)]

/-- The state in which `primary` returns on `x = y = 2;`. -/
def chainedEnd : Sys Dbl :=
  { ts := { full := true, buffer := token.ofChar ';', input := [] }
    vars := [("e", DoubleOps.lit 271828 5), ("pi", DoubleOps.lit 314159 5),
      ("y", Dbl.ofNat 2), ("x", Dbl.ofNat 2)]
    cout := [], cerr := [] }

/-- The state at the end of the session `x = 5; x + 2; q`. -/
def sevenEnd : Sys Dbl :=
  { ts := { full := false, buffer := token.ofChar ';', input := [] }
    vars := [("e", DoubleOps.lit 271828 5), ("pi", DoubleOps.lit 314159 5), ("x", Dbl.ofNat 5)]
    cout := [.text prompt, .text result, .num (Dbl.ofNat 5), .endl,
      .text prompt, .text result, .num (Dbl.ofNat 7), .endl, .text prompt]
    cerr := [] }

/-- What a session can still see of the statement separators: the buffered
token when it is `;`, then the characters not yet read. -/
def token_stream.visible {D : Type} (ts : token_stream D) : List Char :=
  (if ts.full = true ∧ ts.buffer.kind = print then [print] else []) ++ ts.input

/-- Between `a` and `b` only characters other than `;` were used up, or the
character stream has failed. -/
def Advances {D : Type} (a b : token_stream D) : Prop :=
  b.visible = [] ∨ ∃ w, print ∉ w ∧ a.visible = w ++ b.visible

/-- A successful numeric extraction uses up a prefix of the characters,
without any `;`. -/
def LawfulExtract (D : Type) [DoubleOps D] : Prop :=
  ∀ (cs : List Char) (v : D) (r : List Char), DoubleOps.extract cs = some (v, r) →
    ∃ w, print ∉ w ∧ cs = w ++ r

/-- What an outcome that is a return, or a throw of `Undefined variable`,
guarantees about the token stream, relative to the stream `a` at the start:
only characters other than `;` were used up, and after the throw the buffer
holds the token read ahead. -/
def Delimited {D α : Type} (a : token_stream D) : Res (Sys D) α → Prop
  | .ok _ s1 => Advances a s1.ts
  | .error msg s1 =>
    (∃ x : String, msg = "Undefined variable: " ++ x) → Advances a s1.ts ∧ s1.ts.full = true
  | _ => True

/-- Two sessions are in agreement: they have the same buffered token (when
the buffer is occupied), the same characters to read and the same variables,
and since the points where their outputs were `ca`, `cb` (on `std::cout`) and
`ea`, `eb` (on `std::cerr`) they have written the same. -/
structure Agree {D : Type} (ca cb : List (Out D)) (ea eb : List String) (a b : Sys D) :
    Prop where
  full : a.ts.full = b.ts.full
  buffer : a.ts.full = true → a.ts.buffer = b.ts.buffer
  input : a.ts.input = b.ts.input
  vars : a.vars = b.vars
  cout : ∃ l, a.cout = ca ++ l ∧ b.cout = cb ++ l
  cerr : ∃ l, a.cerr = ea ++ l ∧ b.cerr = eb ++ l

/-- Two outcomes are of the same kind, with the same value or message, in
states related by `r`. -/
def Res.Rel {σ α : Type} (r : σ → σ → Prop) : Res σ α → Res σ α → Prop
  | .ok a s, .ok b t => a = b ∧ r s t
  | .error m s, .error k t => m = k ∧ r s t
  | .undef s, .undef t => r s t
  | .fuel, .fuel => True
  | _, _ => False

/-- The state at the end of the session `(x = 1) + y; x; q`. -/
def leakEnd : Sys Dbl :=
  { ts := { full := false, buffer := token.ofChar ';', input := [] }
    vars := [("e", DoubleOps.lit 271828 5), ("pi", DoubleOps.lit 314159 5), ("x", Dbl.ofNat 1)]
    cout := [.text prompt, .text result, .text prompt, .text result, .num (Dbl.ofNat 1), .endl,
      .text prompt]
    cerr := ["Undefined variable: y\n"] }

/-- The state at the end of the session `x; q`. -/
def undefinedEnd : Sys Dbl :=
  { ts := { full := false, buffer := token.ofChar ';', input := [] }
    vars := predefinedVals
    cout := [.text prompt, .text result, .text prompt]
    cerr := ["Undefined variable: x\n"] }

/-- The state in which the first statement of `1 + ; 2 ; q` throws. -/
def danglingThrow : Sys Dbl :=
  { ts := { full := false, buffer := token.ofChar '+', input := " 2 ; q".data }
    vars := predefinedVals
    cout := [.text prompt, .text result]
    cerr := [] }

/-- The state at the end of the session `1 + ; 2 ; q`. -/
def danglingEnd : Sys Dbl :=
  { ts := { full := false, buffer := token.ofChar '+', input := [] }
    vars := predefinedVals
    cout := [.text prompt, .text result, .text prompt]
    cerr := ["Primary expected\n"] }

/-- The state in which `expression` throws on `y + 1; 2; q`. -/
def lookupThrow : Sys Dbl :=
  { ts := { full := true, buffer := token.ofChar '+', input := " 1; 2; q".data }
    vars := predefinedVals, cout := [], cerr := [] }

/-- The characters of `cs` after the first one equal to `c`, none when `c`
does not occur: what is left of a stream once its characters have been used
up to and including the first `c`. -/
def afterFirst (c : Char) : List Char → List Char
  | [] => []
  | ch :: cs => if ch = c then cs else afterFirst c cs

/-- A token stream with an empty buffer over the text `input`. -/
def token_stream.over {D : Type} [DoubleOps D] (input : String) : token_stream D :=
  token_stream.mk0 input.data

/-- The text of the exception that `putback` throws. -/
def overflowText : String := "putback() into a full buffer"

/-- An outcome that is not a throw of the exception of `putback`: when it is
a throw, the text begins with a character other than `p`. -/
def Quiet {σ α : Type} : Res σ α → Prop
  | .error msg _ => msg.data.head? ≠ some 'p'
  | _ => True

/-- An outcome that is `Quiet` and, when it is a return, has left the buffer
empty. -/
def QuietEmpty {D α : Type} : Res (Sys D) α → Prop
  | .ok _ s => s.ts.full = false
  | .error msg _ => msg.data.head? ≠ some 'p'
  | _ => True

/-- The state in which `term` returns on `10 / 0 * 2;`. -/
def earlyReturn : Sys Dbl :=
  { ts := { full := false, buffer := token.ofChar '\x00', input := " * 2;".data }
    vars := predefinedVals
    cout := []
    cerr := ["Error: Division by zero.\n"] }

/-- The state at the end of the session `10 / 0 * 2; q`. -/
def earlyReturnEnd : Sys Dbl :=
  { ts := { full := false, buffer := token.ofChar '*', input := [] }
    vars := predefinedVals
    cout := [.text prompt, .text result, .num Dbl.pinf, .endl, .text prompt, .text result,
      .text prompt]
    cerr := ["Error: Division by zero.\n", "Primary expected\n"] }

/-- Between the sessions `s` and `s1` a prefix of the characters was used
up; when that prefix holds no `=` the variables are the same; and every name
defined in `s` is defined in `s1`. -/
def Sys.Frame {D : Type} (s s1 : Sys D) : Prop :=
  (∃ w, s.ts.input = w ++ s1.ts.input ∧ (assign ∉ w → s1.vars = s.vars)) ∧
  ∀ k, (s.vars.find k).isSome = true → (s1.vars.find k).isSome = true

/-- The state in which an outcome that is a return or a throw ended is
framed by the state `s` at the start. -/
def Framed {D α : Type} (s : Sys D) : Res (Sys D) α → Prop
  | .ok _ s1 => s.Frame s1
  | .error _ s1 => s.Frame s1
  | _ => True

/-- The token sequences that the grammar functions parse, by level, a token
being told by its kind alone:

    Expression: Term | Expression "+" Term | Expression "-" Term
                | Expression "%" Primary
    Term:       Primary | Term "*" Primary | Term "/" Primary
    Primary:    Number | Name | Name "=" Expression | "-" Primary
                | "(" Expression ")"

These are the full expressions of the calculator: the expressions of `Ast`
and those with names, assignments and the remainder operator. -/
inductive Derives {D : Type} : Level → List (token D) → Prop where
  | num (t : token D) : t.kind = number → Derives .prim [t]
  | var (t : token D) : t.kind = name → Derives .prim [t]
  | assigns (t a : token D) (e : List (token D)) : t.kind = name → a.kind = assign →
      Derives .expr e → Derives .prim (t :: a :: e)
  | minus (t : token D) (p : List (token D)) : t.kind = '-' → Derives .prim p →
      Derives .prim (t :: p)
  | parens (t c : token D) (e : List (token D)) : t.kind = '(' → Derives .expr e →
      c.kind = ')' → Derives .prim (t :: (e ++ [c]))
  | ofPrim (p : List (token D)) : Derives .prim p → Derives .term p
  | times (a : List (token D)) (o : token D) (p : List (token D)) : Derives .term a →
      o.kind = '*' → Derives .prim p → Derives .term (a ++ o :: p)
  | over (a : List (token D)) (o : token D) (p : List (token D)) : Derives .term a →
      o.kind = '/' → Derives .prim p → Derives .term (a ++ o :: p)
  | ofTerm (a : List (token D)) : Derives .term a → Derives .expr a
  | plus (a : List (token D)) (o : token D) (b : List (token D)) : Derives .expr a →
      o.kind = '+' → Derives .term b → Derives .expr (a ++ o :: b)
  | less (a : List (token D)) (o : token D) (b : List (token D)) : Derives .expr a →
      o.kind = '-' → Derives .term b → Derives .expr (a ++ o :: b)
  | rem (a : List (token D)) (o : token D) (p : List (token D)) : Derives .expr a →
      o.kind = '%' → Derives .prim p → Derives .expr (a ++ o :: p)

section
variable {D : Type} [DoubleOps D]

/-! ## A larger budget does not change an outcome -/

theorem Res.le_refl {σ α : Type} (r : Res σ α) : r.le r := fun _ => rfl

theorem Res.fuel_le {σ α : Type} (r : Res σ α) : (Res.fuel : Res σ α).le r :=
  fun h => absurd rfl h

theorem Res.bind_le {σ α β : Type} {x x1 : Res σ α} {k k1 : α → σ → Res σ β}
    (hx : x.le x1) (hk : ∀ a s, (k a s).le (k1 a s)) : (x.bind k).le (x1.bind k1) := by
  intro h
  cases x with
  | fuel => exact absurd rfl h
  | ok a s =>
    rw [hx (by simp)]
    exact hk a s h
  | error msg s => rw [hx (by simp)]; rfl
  | undef s => rw [hx (by simp)]; rfl

theorem Res.ite_le {σ α : Type} {c : Prop} [Decidable c] {a a1 b b1 : Res σ α}
    (ha : a.le a1) (hb : b.le b1) : (if c then a else b).le (if c then a1 else b1) := by
  split
  · exact ha
  · exact hb

theorem mono_all (n : Nat) :
    (∀ s : Sys D, (primary n s).le (primary (n + 1) s)) ∧
    (∀ (left : D) (s : Sys D), (termLoop n left s).le (termLoop (n + 1) left s)) ∧
    (∀ s : Sys D, (term n s).le (term (n + 1) s)) ∧
    (∀ (left : D) (s : Sys D), (expressionLoop n left s).le (expressionLoop (n + 1) left s)) ∧
    (∀ s : Sys D, (expression n s).le (expression (n + 1) s)) := by
  induction n with
  | zero =>
    refine ⟨?_, ?_, ?_, ?_, ?_⟩ <;> intros <;> simp only [primary, termLoop, term, expressionLoop, expression] <;> exact Res.fuel_le _
  | succ n ih =>
    obtain ⟨hp, htl, ht, hel, he⟩ := ih
    refine ⟨?_, ?_, ?_, ?_, ?_⟩
    · intro s
      rw [primary, primary]
      refine Res.bind_le (Res.le_refl _) fun t s1 => ?_
      refine Res.ite_le (Res.le_refl _) (Res.ite_le ?_ (Res.ite_le ?_ (Res.ite_le ?_ (Res.le_refl _))))
      · refine Res.bind_le (Res.le_refl _) fun next s2 => ?_
        refine Res.ite_le ?_ (Res.le_refl _)
        exact Res.bind_le (he _) fun _ _ => Res.le_refl _
      · exact Res.bind_le (hp _) fun _ _ => Res.le_refl _
      · exact Res.bind_le (he _) fun _ _ => Res.le_refl _
    · intro left s
      rw [termLoop, termLoop]
      refine Res.bind_le (Res.le_refl _) fun t s1 => ?_
      refine Res.ite_le ?_ (Res.ite_le ?_ (Res.le_refl _))
      · exact Res.bind_le (hp _) fun _ _ => htl _ _
      · refine Res.bind_le (hp _) fun _ _ => Res.ite_le (Res.le_refl _) (htl _ _)
    · intro s
      rw [term, term]
      exact Res.bind_le (hp _) fun _ _ => htl _ _
    · intro left s
      rw [expressionLoop, expressionLoop]
      refine Res.bind_le (Res.le_refl _) fun t s1 => ?_
      refine Res.ite_le ?_ (Res.ite_le ?_ (Res.ite_le ?_ (Res.le_refl _)))
      · exact Res.bind_le (ht _) fun _ _ => hel _ _
      · exact Res.bind_le (ht _) fun _ _ => hel _ _
      · refine Res.bind_le (hp _) fun _ _ => Res.ite_le (Res.le_refl _) (hel _ _)
    · intro s
      rw [expression, expression]
      exact Res.bind_le (ht _) fun _ _ => hel _ _


theorem primary_mono {n m : Nat} (h : n ≤ m) (s : Sys D) : (primary n s).le (primary m s) := by
  induction h with
  | refl => exact Res.le_refl _
  | step _ ih => exact fun hne => by rw [(mono_all _).1 s (by rw [ih hne]; exact hne), ih hne]

theorem termLoop_mono {n m : Nat} (h : n ≤ m) (left : D) (s : Sys D) :
    (termLoop n left s).le (termLoop m left s) := by
  induction h with
  | refl => exact Res.le_refl _
  | step _ ih => exact fun hne => by rw [(mono_all _).2.1 left s (by rw [ih hne]; exact hne), ih hne]

theorem term_mono {n m : Nat} (h : n ≤ m) (s : Sys D) : (term n s).le (term m s) := by
  induction h with
  | refl => exact Res.le_refl _
  | step _ ih => exact fun hne => by rw [(mono_all _).2.2.1 s (by rw [ih hne]; exact hne), ih hne]

theorem expressionLoop_mono {n m : Nat} (h : n ≤ m) (left : D) (s : Sys D) :
    (expressionLoop n left s).le (expressionLoop m left s) := by
  induction h with
  | refl => exact Res.le_refl _
  | step _ ih =>
    exact fun hne => by rw [(mono_all _).2.2.2.1 left s (by rw [ih hne]; exact hne), ih hne]

theorem expression_mono {n m : Nat} (h : n ≤ m) (s : Sys D) :
    (expression n s).le (expression m s) := by
  induction h with
  | refl => exact Res.le_refl _
  | step _ ih => exact fun hne => by rw [(mono_all _).2.2.2.2 s (by rw [ih hne]; exact hne), ih hne]

end

section
variable {D : Type} [DoubleOps D]

/-! ## The token stream -/

theorem get_full {ts : token_stream D} (h : ts.full = true) :
    ts.get = .ok ts.buffer { ts with full := false } := by
  simp [token_stream.get, h]

theorem get_empty {ts : token_stream D} (h : ts.full = false) :
    ts.get = (lex ts.input).lift fun rest => { ts with input := rest } := by
  simp [token_stream.get, h]

theorem get_ok_not_full {ts ts1 : token_stream D} {t : token D} (h : ts.get = .ok t ts1) :
    ts1.full = false := by
  unfold token_stream.get at h
  split at h
  · cases h; rfl
  · rename_i hf
    cases hl : (lex ts.input : Res (List Char) (token D)) <;> rw [hl] at h <;> simp [Res.lift] at h
    rw [← h.2]
    simpa using hf

theorem putback_empty {E : Type} {ts : token_stream E} (h : ts.full = false) (t : token E) :
    ts.putback t = .ok () { ts with buffer := t, full := true } := by
  simp [token_stream.putback, h]

theorem Sys.get_ok {s : Sys D} {t : token D} {ts1 : token_stream D} (h : s.ts.get = .ok t ts1) :
    s.get = .ok t { s with ts := ts1 } := by
  simp [Sys.get, h, Res.lift]

theorem Sys.putback_ok {E : Type} {s : Sys E} (h : s.ts.full = false) (t : token E) :
    s.putback t = .ok () { s with ts := { s.ts with buffer := t, full := true } } := by
  simp [Sys.putback, putback_empty h, Res.lift]

/-! ## One step of each grammar function -/

theorem primary_number {s s1 : Sys D} {t : token D} (n : Nat) (hg : s.get = .ok t s1)
    (hk : t.kind = number) : primary (n + 1) s = .ok t.value s1 := by
  simp [primary, hg, Res.bind, hk]

theorem primary_neg {s s1 : Sys D} {t : token D} (n : Nat) (hg : s.get = .ok t s1)
    (hk : t.kind = '-') :
    primary (n + 1) s = (primary n s1).bind fun v s2 => .ok (DoubleOps.neg v) s2 := by
  simp [primary, hg, Res.bind, hk, number, name]

theorem primary_paren {s s1 : Sys D} {t : token D} (n : Nat) (hg : s.get = .ok t s1)
    (hk : t.kind = '(') :
    primary (n + 1) s = (expression n s1).bind fun d s2 =>
      s2.get.bind fun t2 s3 => if t2.kind ≠ ')' then .error "')' expected" s3 else .ok d s3 := by
  simp [primary, hg, Res.bind, hk, number, name]

theorem termLoop_mul {s s1 : Sys D} {t : token D} (n : Nat) (left : D) (hg : s.get = .ok t s1)
    (hk : t.kind = '*') :
    termLoop (n + 1) left s =
      (primary n s1).bind fun v s2 => termLoop n (DoubleOps.mul left v) s2 := by
  simp [termLoop, hg, Res.bind, hk]

theorem termLoop_div {s s1 : Sys D} {t : token D} (n : Nat) (left : D) (hg : s.get = .ok t s1)
    (hk : t.kind = '/') :
    termLoop (n + 1) left s =
      (primary n s1).bind fun d s2 =>
        if DoubleOps.eqZero d then
          .ok DoubleOps.infinity { s2 with cerr := s2.cerr ++ ["Error: Division by zero.\n"] }
        else termLoop n (DoubleOps.div left d) s2 := by
  simp [termLoop, hg, Res.bind, hk]

theorem termLoop_exit {s s1 : Sys D} {t : token D} (n : Nat) (left : D) (hg : s.get = .ok t s1)
    (h1 : t.kind ≠ '*') (h2 : t.kind ≠ '/') :
    termLoop (n + 1) left s = (s1.putback t).bind fun _ s2 => .ok left s2 := by
  simp [termLoop, hg, Res.bind, h1, h2]

theorem expressionLoop_add {s s1 : Sys D} {t : token D} (n : Nat) (left : D)
    (hg : s.get = .ok t s1) (hk : t.kind = '+') :
    expressionLoop (n + 1) left s =
      (term n s1).bind fun v s2 => expressionLoop n (DoubleOps.add left v) s2 := by
  simp [expressionLoop, hg, Res.bind, hk]

theorem expressionLoop_sub {s s1 : Sys D} {t : token D} (n : Nat) (left : D)
    (hg : s.get = .ok t s1) (hk : t.kind = '-') :
    expressionLoop (n + 1) left s =
      (term n s1).bind fun v s2 => expressionLoop n (DoubleOps.sub left v) s2 := by
  simp [expressionLoop, hg, Res.bind, hk]

theorem expressionLoop_mod {s s1 : Sys D} {t : token D} (n : Nat) (left : D)
    (hg : s.get = .ok t s1) (hk : t.kind = '%') :
    expressionLoop (n + 1) left s =
      (primary n s1).bind fun d s2 =>
        if DoubleOps.eqZero d then .error "modulo by zero" s2
        else expressionLoop n (DoubleOps.fmod left d) s2 := by
  simp [expressionLoop, hg, Res.bind, hk]

theorem expressionLoop_exit {s s1 : Sys D} {t : token D} (n : Nat) (left : D)
    (hg : s.get = .ok t s1) (h1 : t.kind ≠ '+') (h2 : t.kind ≠ '-') (h3 : t.kind ≠ '%') :
    expressionLoop (n + 1) left s = (s1.putback t).bind fun _ s2 => .ok left s2 := by
  simp [expressionLoop, hg, Res.bind, h1, h2, h3]

end

section
variable {D : Type} [DoubleOps D]

/-! ## Reading a token sequence -/

theorem Reads_cons {ts : token_stream D} {t : token D} {toks : List (token D)} {rest : List Char} :
    Reads ts (t :: toks) rest ↔ ∃ ts1, ts.get = .ok t ts1 ∧ Reads ts1 toks rest := by
  rw [Reads]
  cases hg : ts.get with
  | ok t1 ts1 =>
    constructor
    · rintro ⟨rfl, h⟩
      exact ⟨ts1, rfl, h⟩
    · rintro ⟨ts2, h, h2⟩
      cases h
      exact ⟨rfl, h2⟩
  | error msg s => simp
  | undef s => simp
  | fuel => simp

theorem Lexes_cons {cs : List Char} {t : token D} {toks : List (token D)} {rest : List Char} :
    Lexes cs (t :: toks) rest ↔ ∃ cs1, lex cs = .ok t cs1 ∧ Lexes cs1 toks rest := by
  rw [Lexes]
  cases hg : (lex cs : Res (List Char) (token D)) with
  | ok t1 ts1 =>
    constructor
    · rintro ⟨rfl, h⟩
      exact ⟨ts1, rfl, h⟩
    · rintro ⟨ts2, h, h2⟩
      cases h
      exact ⟨rfl, h2⟩
  | error msg s => simp
  | undef s => simp
  | fuel => simp

theorem Reads_empty {ts : token_stream D} (hf : ts.full = false) (toks : List (token D))
    (rest : List Char) : Reads ts toks rest ↔ Lexes ts.input toks rest := by
  induction toks generalizing ts with
  | nil => simp [Reads, Lexes, hf]
  | cons t toks ih =>
    rw [Reads_cons, Lexes_cons, get_empty hf]
    constructor
    · rintro ⟨ts1, h, h2⟩
      cases hl : (lex ts.input : Res (List Char) (token D)) <;> rw [hl] at h <;>
        simp [Res.lift] at h
      rename_i t1 cs1
      obtain ⟨rfl, rfl⟩ := h
      refine ⟨cs1, rfl, ?_⟩
      exact (@ih { ts with input := cs1 } hf).1 h2
    · rintro ⟨cs1, h, h2⟩
      refine ⟨{ ts with input := cs1 }, by simp [h, Res.lift], ?_⟩
      exact (@ih { ts with input := cs1 } hf).2 h2

theorem Lexes_append {cs : List Char} {a b : List (token D)} {rest : List Char} :
    Lexes cs (a ++ b) rest ↔ ∃ mid, Lexes cs a mid ∧ Lexes mid b rest := by
  induction a generalizing cs with
  | nil => simp [Lexes]
  | cons t a ih =>
    simp only [List.cons_append, Lexes_cons, ih]
    constructor
    · rintro ⟨cs1, h, mid, h1, h2⟩
      exact ⟨mid, ⟨cs1, h, h1⟩, h2⟩
    · rintro ⟨mid, ⟨cs1, h, h1⟩, h2⟩
      exact ⟨cs1, h, mid, h1, h2⟩

theorem Reads_append {ts : token_stream D} {a b : List (token D)} {rest : List Char}
    (ha : a ≠ []) : Reads ts (a ++ b) rest ↔ ∃ mid, Reads ts a mid ∧ Lexes mid b rest := by
  cases a with
  | nil => exact absurd rfl ha
  | cons t a =>
    simp only [List.cons_append, Reads_cons]
    constructor
    · rintro ⟨ts1, h, h2⟩
      have hf := get_ok_not_full h
      rw [Reads_empty hf, Lexes_append] at h2
      obtain ⟨mid, h3, h4⟩ := h2
      exact ⟨mid, ⟨ts1, h, (Reads_empty hf _ _).2 h3⟩, h4⟩
    · rintro ⟨mid, ⟨ts1, h, h3⟩, h4⟩
      have hf := get_ok_not_full h
      exact ⟨ts1, h, (Reads_empty hf _ _).2 (Lexes_append.2 ⟨mid, (Reads_empty hf _ _).1 h3, h4⟩)⟩

theorem Ast.tokens_ne_nil {l : Level} (e : Ast D l) : e.tokens ≠ [] := by
  induction e with
  | num v => simp [Ast.tokens]
  | paren e _ => simp [Ast.tokens]
  | neg p _ => simp [Ast.tokens]
  | ofPrim p ih => simpa [Ast.tokens] using ih
  | mul t p iht _ => simp [Ast.tokens, iht]
  | div t p iht _ => simp [Ast.tokens, iht]
  | ofTerm t ih => simpa [Ast.tokens] using ih
  | add e t ihe _ => simp [Ast.tokens, ihe]
  | sub e t ihe _ => simp [Ast.tokens, ihe]

/-- A successful `get()` from an empty buffer, on the session. -/
theorem Sys.get_lex {s : Sys D} {b : token D} {cs cs1 : List Char} {t : token D}
    (hs : s.ts = { full := false, buffer := b, input := cs }) (hl : lex cs = .ok t cs1) :
    s.get = .ok t { s with ts := { full := false, buffer := b, input := cs1 } } := by
  apply Sys.get_ok
  rw [get_empty (by rw [hs]), hs]
  simp [hl, Res.lift]

/-! ## Outcomes reached for every large enough budget -/

theorem Converges.step {σ α : Type} {f g : Nat → Res σ α} {r : Res σ α}
    (h : ∀ m, f (m + 1) = g m) (hg : Converges g r) : Converges f r := by
  obtain ⟨n, hn⟩ := hg
  refine ⟨n + 1, fun m hm => ?_⟩
  obtain ⟨k, rfl⟩ : ∃ k, m = k + 1 := ⟨m - 1, by omega⟩
  rw [h, hn k (by omega)]

theorem Converges.andThen {σ α β : Type} {x : Nat → Res σ α} {k : Nat → α → σ → Res σ β}
    {a : α} {s : σ} {r : Res σ β} (hx : Converges x (.ok a s))
    (hk : Converges (fun m => k m a s) r) : Converges (fun m => (x m).bind (k m)) r := by
  obtain ⟨n1, h1⟩ := hx
  obtain ⟨n2, h2⟩ := hk
  refine ⟨max n1 n2, fun m hm => ?_⟩
  show (x m).bind (k m) = r
  rw [h1 m (le_trans (le_max_left _ _) hm)]
  exact h2 m (le_trans (le_max_right _ _) hm)

theorem Converges.const {σ α : Type} (r : Res σ α) : Converges (fun _ => r) r :=
  ⟨0, fun _ _ => rfl⟩

end

section
variable {D : Type} [DoubleOps D]

/-- A `get()` that takes the token out of the buffer, on the session. -/
theorem Sys.get_buffer (s : Sys D) (t : token D) (cs : List Char) :
    ({ s with ts := { full := true, buffer := t, input := cs } } : Sys D).get =
      .ok t { s with ts := { full := false, buffer := t, input := cs } } := by
  apply Sys.get_ok
  rw [get_full rfl]

/-- When the next token is neither `*` nor `/`, the loop of `term` puts it
back and returns the running value. -/
theorem termLoop_exit_lex (s : Sys D) (b tk : token D) (cs1 cs2 : List Char) (left : D)
    (hl : lex cs1 = .ok tk cs2) (h1 : tk.kind ≠ '*') (h2 : tk.kind ≠ '/') (m : Nat) :
    termLoop (m + 1) left { s with ts := { full := false, buffer := b, input := cs1 } } =
      .ok left { s with ts := { full := true, buffer := tk, input := cs2 } } := by
  rw [termLoop_exit m left (Sys.get_lex rfl hl) h1 h2, Sys.putback_ok rfl]
  rfl

/-- When the buffered token is none of `+`, `-`, `%`, the loop of `expression`
leaves it in the buffer and returns the running value. -/
theorem expressionLoop_exit_buffer (s : Sys D) (tk : token D) (cs : List Char) (left : D)
    (h1 : tk.kind ≠ '+') (h2 : tk.kind ≠ '-') (h3 : tk.kind ≠ '%') (m : Nat) :
    expressionLoop (m + 1) left { s with ts := { full := true, buffer := tk, input := cs } } =
      .ok left { s with ts := { full := true, buffer := tk, input := cs } } := by
  rw [expressionLoop_exit m left (Sys.get_buffer s tk cs) h1 h2 h3, Sys.putback_ok rfl]
  rfl

theorem Ast.parsed {l : Level} (e : Ast D l) (hz : e.noZeroDivisor = true) : e.Parsed := by
  induction e with
  | num v =>
    intro s cs1 h
    rw [Ast.tokens, Reads_cons] at h
    obtain ⟨ts1, hg, h2⟩ := h
    obtain ⟨hf, hi⟩ := h2
    refine ⟨ts1.buffer, 1, fun m hm => ?_⟩
    obtain ⟨k, rfl⟩ : ∃ k, m = k + 1 := ⟨m - 1, by omega⟩
    show primary (k + 1) s = _
    rw [primary_number k (Sys.get_ok hg) rfl]
    cases ts1
    simp_all [token.ofDouble, Ast.value]
  | paren e ih =>
    intro s cs1 h
    have ih := ih hz
    rw [Ast.tokens, Reads_cons] at h
    obtain ⟨ts1, hg, h2⟩ := h
    have hf := get_ok_not_full hg
    rw [Reads_empty hf, Lexes_append] at h2
    obtain ⟨mid, h3, h4⟩ := h2
    rw [Lexes_cons] at h4
    obtain ⟨cs2, hl, h5⟩ := h4
    have h5 : cs2 = cs1 := h5
    rw [← h5]
    refine ⟨token.ofChar ')', ?_⟩
    refine Converges.step (fun m => primary_paren m (Sys.get_ok hg) rfl) ?_
    have he : Converges (fun m => expression m { s with ts := ts1 })
        (.ok e.value { s with ts := { full := true, buffer := token.ofChar ')', input := cs2 } }) := by
      refine ih { s with ts := ts1 } mid (token.ofChar ')') cs2 _ ((Reads_empty hf _ _).2 h3) hl
        (by simp [token.ofChar]) (by simp [token.ofChar]) ?_
      refine Converges.step (g := fun _ => _) (fun m => ?_) (Converges.const _)
      exact expressionLoop_exit_buffer s _ _ _ (by simp [token.ofChar]) (by simp [token.ofChar])
        (by simp [token.ofChar]) m
    refine Converges.andThen (k := fun _ d s2 => s2.get.bind fun t2 s3 =>
      if t2.kind ≠ ')' then .error "')' expected" s3 else .ok d s3) he ?_
    simp only [Sys.get_buffer]
    simp [Res.bind, token.ofChar, Ast.value]
    exact Converges.const _
  | neg p ih =>
    intro s cs1 h
    rw [Ast.tokens, Reads_cons] at h
    obtain ⟨ts1, hg, h2⟩ := h
    obtain ⟨b, hb⟩ := ih hz { s with ts := ts1 } cs1 h2
    refine ⟨b, Converges.step (fun m => primary_neg m (Sys.get_ok hg) rfl) ?_⟩
    exact Converges.andThen (k := fun _ v s2 => .ok (DoubleOps.neg v) s2) hb (Converges.const _)
  | ofPrim p ih =>
    intro s cs1 r h hr
    obtain ⟨b, hb⟩ := ih hz s cs1 h
    exact Converges.step (fun m => by rw [term]) (Converges.andThen hb (hr b))
  | mul t p iht ihp =>
    intro s cs1 r h hr
    simp only [Ast.noZeroDivisor, Bool.and_eq_true] at hz
    obtain ⟨hzt, hzp⟩ := hz
    rw [Ast.tokens, Reads_append t.tokens_ne_nil] at h
    obtain ⟨mid, h1, h2⟩ := h
    rw [Lexes_cons] at h2
    obtain ⟨csB, hl, h3⟩ := h2
    refine iht hzt s mid r h1 fun b => ?_
    obtain ⟨b1, hb1⟩ := ihp hzp { s with ts := { full := false, buffer := b, input := csB } } cs1
      ((Reads_empty rfl _ _).2 h3)
    refine Converges.step (fun m => termLoop_mul m _ (Sys.get_lex rfl hl) rfl) ?_
    exact Converges.andThen hb1 (hr b1)
  | div t p iht ihp =>
    intro s cs1 r h hr
    simp only [Ast.noZeroDivisor, Bool.and_eq_true, Bool.not_eq_true'] at hz
    obtain ⟨⟨hzt, hzp⟩, hzero⟩ := hz
    rw [Ast.tokens, Reads_append t.tokens_ne_nil] at h
    obtain ⟨mid, h1, h2⟩ := h
    rw [Lexes_cons] at h2
    obtain ⟨csB, hl, h3⟩ := h2
    refine iht hzt s mid r h1 fun b => ?_
    obtain ⟨b1, hb1⟩ := ihp hzp { s with ts := { full := false, buffer := b, input := csB } } cs1
      ((Reads_empty rfl _ _).2 h3)
    refine Converges.step (fun m => termLoop_div m _ (Sys.get_lex rfl hl) rfl) ?_
    refine Converges.andThen (k := fun m d s2 => if DoubleOps.eqZero d then _ else termLoop m _ s2) hb1 ?_
    simp only [hzero]
    exact hr b1
  | ofTerm t ih =>
    intro s cs1 tk cs2 r h hl h1 h2 hr
    refine Converges.step (fun m => by rw [expression]) ?_
    refine Converges.andThen (ih hz s cs1 _ h fun b => ?_) hr
    exact Converges.step (g := fun _ => _) (fun m => termLoop_exit_lex s b tk cs1 cs2 _ hl h1 h2 m)
      (Converges.const _)
  | add e t ihe iht =>
    intro s cs1 tk cs2 r h hl h1 h2 hr
    simp only [Ast.noZeroDivisor, Bool.and_eq_true] at hz
    obtain ⟨hze, hzt⟩ := hz
    rw [Ast.tokens, Reads_append e.tokens_ne_nil] at h
    obtain ⟨mid, h3, h4⟩ := h
    rw [Lexes_cons] at h4
    obtain ⟨csB, hlB, h5⟩ := h4
    refine ihe hze s mid (token.ofChar '+') csB r h3 hlB (by simp [token.ofChar])
      (by simp [token.ofChar]) ?_
    refine Converges.step (fun m => expressionLoop_add m _ (Sys.get_buffer s _ _) rfl) ?_
    refine Converges.andThen (iht hzt _ cs1 _ ((Reads_empty rfl _ _).2 h5) fun b => ?_) hr
    exact Converges.step (g := fun _ => _) (fun m => termLoop_exit_lex s b tk cs1 cs2 _ hl h1 h2 m)
      (Converges.const _)
  | sub e t ihe iht =>
    intro s cs1 tk cs2 r h hl h1 h2 hr
    simp only [Ast.noZeroDivisor, Bool.and_eq_true] at hz
    obtain ⟨hze, hzt⟩ := hz
    rw [Ast.tokens, Reads_append e.tokens_ne_nil] at h
    obtain ⟨mid, h3, h4⟩ := h
    rw [Lexes_cons] at h4
    obtain ⟨csB, hlB, h5⟩ := h4
    refine ihe hze s mid (token.ofChar '-') csB r h3 hlB (by simp [token.ofChar])
      (by simp [token.ofChar]) ?_
    refine Converges.step (fun m => expressionLoop_sub m _ (Sys.get_buffer s _ _) rfl) ?_
    refine Converges.andThen (iht hzt _ cs1 _ ((Reads_empty rfl _ _).2 h5) fun b => ?_) hr
    exact Converges.step (g := fun _ => _) (fun m => termLoop_exit_lex s b tk cs1 cs2 _ hl h1 h2 m)
      (Converges.const _)

end

section
variable {D : Type} [DoubleOps D]

theorem Reads_of_readsB [DecidableEq D] {ts : token_stream D} {toks : List (token D)}
    {rest : List Char} (h : readsB ts toks rest = true) : Reads ts toks rest := by
  induction toks generalizing ts with
  | nil => simpa [readsB, Reads] using h
  | cons t toks ih =>
    rw [readsB] at h
    rw [Reads]
    cases hg : ts.get <;> rw [hg] at h <;> simp at h
    exact ⟨h.1, ih h.2⟩

/-- C1 (amended): for an expression over numeric literals, binary
`+ - * /` and parentheses none of whose divisors has value zero, when the
calls of `get()` return the tokens of the expression followed by a token `tk`
that is not a binary operator, `expression` returns the reference value of the
expression, for every large enough budget; it leaves `tk` in the buffer and
changes nothing else. -/
theorem expression_eq_value (e : Ast D .expr) (hz : e.noZeroDivisor = true) (s : Sys D)
    (tk : token D) (rest : List Char) (hr : Reads s.ts (e.tokens ++ [tk]) rest)
    (hk : tk.kind ∉ operatorKinds) :
    ∃ n, ∀ m, n ≤ m → expression m s =
      .ok e.value { s with ts := { full := true, buffer := tk, input := rest } } := by
  simp only [operatorKinds, List.mem_cons, List.mem_singleton, List.not_mem_nil, or_false,
    not_or] at hk
  obtain ⟨h1, h2, h3, h4, h5⟩ := hk
  rw [Reads_append e.tokens_ne_nil] at hr
  obtain ⟨mid, hr1, hr2⟩ := hr
  rw [Lexes_cons] at hr2
  obtain ⟨cs2, hl, hr3⟩ := hr2
  have hr3 : cs2 = rest := hr3
  rw [← hr3]
  refine Ast.parsed e hz s mid tk cs2 _ hr1 hl h3 h4 ?_
  exact Converges.step (g := fun _ => _)
    (fun m => expressionLoop_exit_buffer s tk cs2 _ h1 h2 h5 m) (Converges.const _)

end

/-- C1 (witness): the text `2 + 3 * (5 - 2);`, whose reference value is 11. -/
theorem expression_eq_value_witness :
    twoPlusThreeTimes.value = Dbl.ofNat 11 ∧
    ∃ n, ∀ m, n ≤ m → expression m (Sys.start "2 + 3 * (5 - 2);" : Sys Dbl) =
      .ok twoPlusThreeTimes.value
        { (Sys.start "2 + 3 * (5 - 2);" : Sys Dbl) with
          ts := { full := true, buffer := token.ofChar ';', input := [] } } :=
  ⟨by decide!, expression_eq_value twoPlusThreeTimes (by decide!) _ _ _
    (Reads_of_readsB (by decide!)) (by decide!)⟩

section
variable {D : Type} [DoubleOps D]

/-! ## More on single steps -/

theorem Sys.get_ok_iff {s s1 : Sys D} {t : token D} :
    s.get = .ok t s1 ↔ ∃ ts1, s.ts.get = .ok t ts1 ∧ s1 = { s with ts := ts1 } := by
  unfold Sys.get
  cases hg : s.ts.get <;> simp [Res.lift]
  constructor
  · rintro ⟨rfl, rfl⟩
    exact ⟨_, ⟨rfl, rfl⟩, rfl⟩
  · rintro ⟨w, ⟨rfl, rfl⟩, rfl⟩
    exact ⟨rfl, rfl⟩

theorem Sys.get_ok_full {s s1 : Sys D} {t : token D} (h : s.get = .ok t s1) :
    s1.ts.full = false := by
  obtain ⟨ts1, hg, rfl⟩ := Sys.get_ok_iff.1 h
  exact get_ok_not_full hg

theorem Reads_cons_sys {s : Sys D} {t : token D} {toks : List (token D)} {rest : List Char}
    (h : Reads s.ts (t :: toks) rest) :
    ∃ ts1, s.get = .ok t { s with ts := ts1 } ∧ ts1.full = false ∧ Reads ts1 toks rest := by
  obtain ⟨ts1, hg, h2⟩ := Reads_cons.1 h
  exact ⟨ts1, Sys.get_ok hg, get_ok_not_full hg, h2⟩

/-- After a `get()`, the loop of `term` puts a token that is neither `*`
nor `/` back and returns the running value. -/
theorem termLoop_exit_get {s s1 : Sys D} {t : token D} (n : Nat) (left : D)
    (hg : s.get = .ok t s1) (h1 : t.kind ≠ '*') (h2 : t.kind ≠ '/') :
    termLoop (n + 1) left s =
      .ok left { s1 with ts := { s1.ts with buffer := t, full := true } } := by
  rw [termLoop_exit n left hg h1 h2, Sys.putback_ok (Sys.get_ok_full hg)]
  rfl

/-- After a `get()`, the loop of `expression` puts a token that is none of
`+`, `-`, `%` back and returns the running value. -/
theorem expressionLoop_exit_get {s s1 : Sys D} {t : token D} (n : Nat) (left : D)
    (hg : s.get = .ok t s1) (h1 : t.kind ≠ '+') (h2 : t.kind ≠ '-') (h3 : t.kind ≠ '%') :
    expressionLoop (n + 1) left s =
      .ok left { s1 with ts := { s1.ts with buffer := t, full := true } } := by
  rw [expressionLoop_exit n left hg h1 h2 h3, Sys.putback_ok (Sys.get_ok_full hg)]
  rfl

/-- With a token that is none of `+`, `-`, `%` in the buffer, the loop of
`expression` returns the running value and leaves the state as it is. -/
theorem expressionLoop_exit_full (s : Sys D) (n : Nat) (left : D) (hf : s.ts.full = true)
    (h1 : s.ts.buffer.kind ≠ '+') (h2 : s.ts.buffer.kind ≠ '-') (h3 : s.ts.buffer.kind ≠ '%') :
    expressionLoop (n + 1) left s = .ok left s := by
  rw [expressionLoop_exit_get n left (Sys.get_ok (get_full hf)) h1 h2 h3]
  obtain ⟨⟨f, b, i⟩, v, o, e⟩ := s
  simp_all

/-- The identifier branch of `primary` when the next token is not `=`: the
token is put back and the name is looked up in the table. -/
theorem primary_lookup {s s1 s2 : Sys D} {t next : token D} (n : Nat) (h1 : s.get = .ok t s1)
    (ht : t.kind = name) (h2 : s1.get = .ok next s2) (hn : next.kind ≠ assign) :
    primary (n + 1) s =
      match s.vars.find t.name with
      | some v => .ok v { s2 with ts := { s2.ts with buffer := next, full := true } }
      | none => .error ("Undefined variable: " ++ t.name)
          { s2 with ts := { s2.ts with buffer := next, full := true } } := by
  have hv : s2.vars = s.vars := by
    obtain ⟨_, _, rfl⟩ := Sys.get_ok_iff.1 h1
    obtain ⟨_, _, rfl⟩ := Sys.get_ok_iff.1 h2
    rfl
  simp only [primary, h1, Res.bind, ht, name, number, h2]
  simp only [show ¬ ('c' = '8') by decide, if_false, if_true, hn,
    Sys.putback_ok (Sys.get_ok_full h2), hv]

/-- The identifier branch of `primary` when the next token is `=`. -/
theorem primary_assign_step {s s1 s2 : Sys D} {t next : token D} (n : Nat)
    (h1 : s.get = .ok t s1) (ht : t.kind = name) (h2 : s1.get = .ok next s2)
    (hn : next.kind = assign) :
    primary (n + 1) s =
      (expression n s2).bind fun value s3 =>
        .ok value { s3 with vars := s3.vars.set t.name value } := by
  simp only [primary, h1, Res.bind, ht, name, number, h2]
  simp only [show ¬ ('c' = '8') by decide, if_false, if_true, hn]

end

/-- C1 (counterexample): on `(0 - 1) / 0 ;` the reference value is minus
infinity, while `expression` returns plus infinity for every budget from 8 on,
so it returns the reference value for no budget from some point on. -/
theorem expression_eq_value_counterexample :
    Reads (Sys.start minusOneByZeroText : Sys Dbl).ts
      (minusOneByZero.tokens ++ [token.ofChar ';']) [] ∧
    (token.ofChar ';' : token Dbl).kind ∉ operatorKinds ∧
    minusOneByZero.value = Dbl.ninf ∧
    (∀ m, 8 ≤ m → expression m (Sys.start minusOneByZeroText) =
      .ok Dbl.pinf minusOneByZeroEnd) ∧
    ¬ ∃ n, ∀ m, n ≤ m → expression m (Sys.start minusOneByZeroText : Sys Dbl) =
      .ok minusOneByZero.value { (Sys.start minusOneByZeroText : Sys Dbl) with
        ts := { full := true, buffer := token.ofChar ';', input := [] } } := by
  have h8 : expression 8 (Sys.start minusOneByZeroText) = .ok Dbl.pinf minusOneByZeroEnd := by
    decide!
  have hall : ∀ m, 8 ≤ m → expression m (Sys.start minusOneByZeroText) =
      .ok Dbl.pinf minusOneByZeroEnd := fun m hm => by
    rw [expression_mono hm _ (by rw [h8]; simp), h8]
  refine ⟨Reads_of_readsB (by decide!), by decide!, by decide!, hall, ?_⟩
  rintro ⟨n, hn⟩
  have h1 := hn (max n 8) (le_max_left _ _)
  rw [hall _ (le_max_right _ _)] at h1
  revert h1
  decide!

section
variable {D : Type} [DoubleOps D]

/-- C3: in the loop of `term`, for every running value `left`, when the next
token is `/` and the primary after it returns a value for which `d == 0`
holds, the loop returns plus infinity and throws nothing; it writes the
diagnostic to `std::cerr`.  The same holds of `term` when its first primary
returned `left`. -/
theorem termLoop_div_zero (n : Nat) (left : D) (s s1 s2 : Sys D) (t : token D) (d : D)
    (hg : s.get = .ok t s1) (hk : t.kind = '/') (hp : primary n s1 = .ok d s2)
    (hz : DoubleOps.eqZero d = true) :
    termLoop (n + 1) left s =
      .ok DoubleOps.infinity { s2 with cerr := s2.cerr ++ ["Error: Division by zero.\n"] } ∧
    ∀ s0 : Sys D, primary n s0 = .ok left s →
      term (n + 2) s0 =
        .ok DoubleOps.infinity { s2 with cerr := s2.cerr ++ ["Error: Division by zero.\n"] } := by
  have h1 : termLoop (n + 1) left s =
      .ok DoubleOps.infinity { s2 with cerr := s2.cerr ++ ["Error: Division by zero.\n"] } := by
    rw [termLoop_div n left hg hk, hp]
    simp [Res.bind, hz]
  refine ⟨h1, fun s0 h0 => ?_⟩
  have h2 : primary (n + 1) s0 = .ok left s := by
    rw [primary_mono (Nat.le_succ n) s0 (by rw [h0]; simp), h0]
  rw [term, h2]
  exact h1

/-- C4: in the loop of `expression`, for every running value `left`, when
the next token is `%` and the primary after it returns `d`: if `d == 0` holds
the loop throws `modulo by zero`; if not, this step throws nothing and the loop
goes on with `fmod(left, d)`, and when the token after the primary is none of
`+ - %` the result is `fmod(left, d)` and no budget makes the loop throw
`modulo by zero`. -/
theorem expressionLoop_mod_zero_iff (n : Nat) (left : D) (s s1 s2 : Sys D) (t : token D) (d : D)
    (hg : s.get = .ok t s1) (hk : t.kind = '%') (hp : primary n s1 = .ok d s2) :
    (DoubleOps.eqZero d = true →
      expressionLoop (n + 1) left s = .error "modulo by zero" s2) ∧
    (DoubleOps.eqZero d = false →
      expressionLoop (n + 1) left s = expressionLoop n (DoubleOps.fmod left d) s2) ∧
    (DoubleOps.eqZero d = false → ∀ (tk : token D) (s3 : Sys D), s2.get = .ok tk s3 →
      tk.kind ≠ '+' → tk.kind ≠ '-' → tk.kind ≠ '%' →
      expressionLoop (n + 2) left s =
        .ok (DoubleOps.fmod left d) { s3 with ts := { s3.ts with buffer := tk, full := true } } ∧
      ¬ ∃ m s4, expressionLoop m left s = .error "modulo by zero" s4) := by
  have hstep : ∀ k, n ≤ k → expressionLoop (k + 1) left s =
      if DoubleOps.eqZero d then .error "modulo by zero" s2
      else expressionLoop k (DoubleOps.fmod left d) s2 := fun k hk1 => by
    rw [expressionLoop_mod k left hg hk, primary_mono hk1 s1 (by rw [hp]; simp), hp]
    rfl
  refine ⟨fun hz => ?_, fun hz => ?_, fun hz tk s3 hg3 h1 h2 h3 => ?_⟩
  · rw [hstep n le_rfl, hz]; rfl
  · rw [hstep n le_rfl, hz]; rfl
  · have hres : expressionLoop (n + 2) left s =
        .ok (DoubleOps.fmod left d)
          { s3 with ts := { s3.ts with buffer := tk, full := true } } := by
      rw [hstep (n + 1) (Nat.le_succ n), hz]
      exact expressionLoop_exit_get n _ hg3 h1 h2 h3
    refine ⟨hres, ?_⟩
    rintro ⟨m, s4, hm⟩
    rcases Nat.le_total m (n + 2) with hle | hle
    · have := expressionLoop_mono hle left s (by rw [hm]; simp)
      rw [hres, hm] at this
      exact absurd this (by simp)
    · have := expressionLoop_mono hle left s (by rw [hres]; simp)
      rw [hres, hm] at this
      exact absurd this (by simp)

end

section
variable {D : Type} [DoubleOps D]

/-! ## Expressions and the variable table -/

/-- On the tokens of an expression without a zero divisor followed by a
token that is not a binary operator, `expression` returns the reference
value for every large enough budget. -/
theorem Ast.expression_converges (e : Ast D .expr) (hz : e.noZeroDivisor = true) (s : Sys D)
    (tk : token D) (rest : List Char) (hr : Reads s.ts (e.tokens ++ [tk]) rest)
    (hk : tk.kind ∉ operatorKinds) :
    Converges (fun m => expression m s)
      (.ok e.value { s with ts := { full := true, buffer := tk, input := rest } }) := by
  simp only [operatorKinds, List.mem_cons, List.mem_singleton, List.not_mem_nil, or_false,
    not_or] at hk
  obtain ⟨h1, h2, h3, h4, h5⟩ := hk
  obtain ⟨mid, hr1, hr2⟩ := (Reads_append e.tokens_ne_nil).1 hr
  obtain ⟨cs2, hl, hr3⟩ := Lexes_cons.1 hr2
  have hr3 : cs2 = rest := hr3
  subst hr3
  exact Ast.parsed e hz s mid tk cs2 _ hr1 hl h3 h4
    (Converges.step (g := fun _ => _)
      (fun m => expressionLoop_exit_buffer s tk cs2 _ h1 h2 h5 m) (Converges.const _))

theorem Vars.find_set_same {E : Type} (m : Vars E) (k : String) (v : E) : (m.set k v).find k = some v := by
  induction m with
  | nil => simp [Vars.set, Vars.find]
  | cons p m ih =>
    obtain ⟨k1, v1⟩ := p
    by_cases h : k1 = k
    · simp [Vars.set, Vars.find, h]
    · simp [Vars.set, Vars.find, h, ih]

theorem Vars.find_set_other {E : Type} (m : Vars E) (k j : String) (v : E) (h : j ≠ k) :
    (m.set k v).find j = m.find j := by
  induction m with
  | nil => simp [Vars.set, Vars.find, h.symm]
  | cons p m ih =>
    obtain ⟨k1, v1⟩ := p
    by_cases h1 : k1 = k
    · subst h1
      simp [Vars.set, Vars.find, h.symm]
    · by_cases h2 : k1 = j
      · subst h2
        simp [Vars.set, Vars.find, h1]
      · simp [Vars.set, Vars.find, h1, h2, ih]

/-- With a token that is neither `*` nor `/` in the buffer, the loop of `term`
returns the running value and leaves the state as it is. -/
theorem termLoop_exit_full (s : Sys D) (n : Nat) (left : D) (hf : s.ts.full = true)
    (h1 : s.ts.buffer.kind ≠ '*') (h2 : s.ts.buffer.kind ≠ '/') :
    termLoop (n + 1) left s = .ok left s := by
  rw [termLoop_exit_get n left (Sys.get_ok (get_full hf)) h1 h2]
  obtain ⟨⟨f, b, i⟩, v, o, e⟩ := s
  simp_all

/-- When `primary` returns with a token that is not a binary operator in the
buffer, `expression` returns the same value in the same state. -/
theorem expression_of_primary (n : Nat) (s s1 : Sys D) (v : D) (hp : primary n s = .ok v s1)
    (hf : s1.ts.full = true) (hk : s1.ts.buffer.kind ∉ operatorKinds) :
    ∀ m, n + 3 ≤ m → expression m s = .ok v s1 := by
  simp only [operatorKinds, List.mem_cons, List.mem_singleton, List.not_mem_nil, or_false,
    not_or] at hk
  obtain ⟨h1, h2, h3, h4, h5⟩ := hk
  have h : expression (n + 3) s = .ok v s1 := by
    rw [expression, term, primary_mono (Nat.le_succ n) s (by rw [hp]; simp), hp]
    simp only [Res.bind]
    rw [termLoop_exit_full s1 n v hf h3 h4]
    exact expressionLoop_exit_full s1 (n + 1) v hf h1 h2 h5
  intro m hm
  rw [expression_mono hm s (by rw [h]; simp), h]

end

section
variable {D : Type} [DoubleOps D]

/-- C2 (amended): when the tokens at hand are an identifier and `=`, and
`expression` on what follows returns `v` in state `s3`, `primary` returns `v`
and leaves the table of `s3` (the table as the right-hand side left it) with
the identifier mapped to `v`, inserted or overwritten, every other entry
kept.  A later `primary` on that identifier followed by a token other than
`=`, run with this table, returns `v`.  When the right-hand side is an
expression over literals, `+ - * /`, parentheses and unary minus without a
zero divisor, `v` is its reference value and the table of `s3` is the table
before the statement. -/
theorem primary_assignment (n : Nat) (s s1 s2 s3 : Sys D) (t next : token D) (v : D)
    (h1 : s.get = .ok t s1) (ht : t.kind = name) (h2 : s1.get = .ok next s2)
    (hn : next.kind = assign) (he : expression n s2 = .ok v s3) :
    primary (n + 1) s = .ok v { s3 with vars := s3.vars.set t.name v } ∧
    (s3.vars.set t.name v).find t.name = some v ∧
    (∀ k, k ≠ t.name → (s3.vars.set t.name v).find k = s3.vars.find k) ∧
    (∀ (s4 s5 s6 : Sys D) (t4 tk : token D) (m : Nat),
      s4.vars = s3.vars.set t.name v → s4.get = .ok t4 s5 → t4.kind = name →
      t4.name = t.name → s5.get = .ok tk s6 → tk.kind ≠ assign →
      primary (m + 1) s4 =
        .ok v { s6 with ts := { s6.ts with buffer := tk, full := true } }) ∧
    (∀ (e : Ast D .expr) (tk : token D) (rest : List Char), e.noZeroDivisor = true →
      Reads s2.ts (e.tokens ++ [tk]) rest → tk.kind ∉ operatorKinds →
      v = e.value ∧ s3.vars = s.vars) := by
  refine ⟨?_, Vars.find_set_same _ _ _, fun k hk => Vars.find_set_other _ _ _ _ hk, ?_, ?_⟩
  · rw [primary_assign_step n h1 ht h2 hn, he]
    rfl
  · intro s4 s5 s6 t4 tk m hv g4 k4 n4 g5 k5
    rw [primary_lookup m g4 k4 g5 k5, hv, n4, Vars.find_set_same]
  · intro e tk rest hz hr hk
    obtain ⟨n0, h0⟩ := Ast.expression_converges e hz s2 tk rest hr hk
    have h3 : expression (max n0 n) s2 = _ := h0 (max n0 n) (le_max_left _ _)
    rw [expression_mono (le_max_right n0 n) s2 (by rw [he]; simp), he] at h3
    simp only [Res.ok.injEq] at h3
    obtain ⟨hv, hs⟩ := h3
    refine ⟨hv, ?_⟩
    obtain ⟨_, _, rfl⟩ := Sys.get_ok_iff.1 h1
    obtain ⟨_, _, rfl⟩ := Sys.get_ok_iff.1 h2
    rw [hs]

/-- C8: when the token at hand is `-` and `primary` on what follows returns
`v` in state `s2`, `primary` returns `-v` in that same state `s2`: the minus
applies to one primary and reads nothing beyond it.  Hence, for numbers `a`
and `b` and a token `tk` that is not a binary operator, `- a * - b tk`
evaluates to `(-a) * (-b)` and `- a + b tk` to `(-a) + b`. -/
theorem primary_unary_minus (n : Nat) (s s1 s2 : Sys D) (t : token D) (v : D)
    (hg : s.get = .ok t s1) (hk : t.kind = '-') (hp : primary n s1 = .ok v s2) :
    primary (n + 1) s = .ok (DoubleOps.neg v) s2 ∧
    (∀ (s0 : Sys D) (a b : D) (tk : token D) (rest : List Char),
      Reads s0.ts [token.ofChar '-', token.ofDouble a, token.ofChar '*', token.ofChar '-',
        token.ofDouble b, tk] rest → tk.kind ∉ operatorKinds →
      ∃ n0, ∀ m, n0 ≤ m →
        expression m s0 = .ok (DoubleOps.mul (DoubleOps.neg a) (DoubleOps.neg b))
          { s0 with ts := { full := true, buffer := tk, input := rest } }) ∧
    (∀ (s0 : Sys D) (a b : D) (tk : token D) (rest : List Char),
      Reads s0.ts [token.ofChar '-', token.ofDouble a, token.ofChar '+', token.ofDouble b, tk]
        rest → tk.kind ∉ operatorKinds →
      ∃ n0, ∀ m, n0 ≤ m →
        expression m s0 = .ok (DoubleOps.add (DoubleOps.neg a) b)
          { s0 with ts := { full := true, buffer := tk, input := rest } }) := by
  refine ⟨?_, ?_, ?_⟩
  · rw [primary_neg n hg hk, hp]; rfl
  · intro s0 a b tk rest hr hk
    exact Ast.expression_converges
      (.ofTerm (.mul (.ofPrim (.neg (.num a))) (.neg (.num b)))) rfl s0 tk rest hr hk
  · intro s0 a b tk rest hr hk
    exact Ast.expression_converges
      (.add (.ofTerm (.ofPrim (.neg (.num a)))) (.ofPrim (.num b))) rfl s0 tk rest hr hk

/-- C9: with the table as initialised at program start, when the calls of
`get()` return the identifier `pi` (or `e`) and then a token that is neither
`=` nor a binary operator, `expression` returns `3.14159` (or `2.71828`)
and throws nothing; the table is unchanged. -/
theorem expression_predefined (s : Sys D) (hv : s.vars = predefinedVals) (nm : String) (v : D)
    (hm : (nm, v) ∈ (predefinedLiterals : List (String × D))) (tk : token D)
    (rest : List Char) (hr : Reads s.ts [token.named name nm, tk] rest)
    (hk : tk.kind ∉ assign :: operatorKinds) :
    ∀ m, 4 ≤ m → expression m s =
      .ok v { s with ts := { full := true, buffer := tk, input := rest } } := by
  obtain ⟨ts1, g1, -, hr⟩ := Reads_cons_sys hr
  obtain ⟨ts2, g2, f2, hr⟩ := Reads_cons_sys (s := { s with ts := ts1 }) hr
  obtain ⟨-, hi⟩ := hr
  have hka : tk.kind ≠ assign := fun h => hk (by simp [h])
  have hko : tk.kind ∉ operatorKinds := fun h => hk (List.mem_cons_of_mem _ h)
  have hfind : s.vars.find nm = some v := by
    rw [hv]
    simp only [predefinedLiterals, List.mem_cons, Prod.mk.injEq, List.mem_singleton,
      List.not_mem_nil, or_false] at hm
    rcases hm with ⟨rfl, rfl⟩ | ⟨rfl, rfl⟩
    · simp [predefinedVals, Vars.find]
    · simp [predefinedVals, Vars.find]
  have hp := primary_lookup 0 g1 rfl g2 hka
  simp only [token.named] at hp
  rw [hfind] at hp
  have := expression_of_primary 1 s _ v hp rfl hko
  intro m hm4
  rw [this m hm4]
  simp [hi]

/-- C10: `putback` on a stream whose buffer is occupied throws
`putback() into a full buffer` and leaves the stream, buffered token and
flag included, as it was; so of two calls of `putback` in a row the second
always throws. -/
theorem putback_full {E : Type} (ts : token_stream E) (t : token E) (h : ts.full = true) :
    ts.putback t = .error "putback() into a full buffer" ts ∧
    ∀ (ts0 ts1 : token_stream E) (t1 t2 : token E), (ts0.putback t1).final = some ts1 →
      ts1.putback t2 = .error "putback() into a full buffer" ts1 := by
  refine ⟨by simp [token_stream.putback, h], fun ts0 ts1 t1 t2 h1 => ?_⟩
  have hf : ts1.full = true := by
    unfold token_stream.putback at h1
    split at h1
    · simp only [Res.final, Option.some.injEq] at h1
      rw [← h1]
      assumption
    · simp only [Res.final, Option.some.injEq] at h1
      rw [← h1]
  simp [token_stream.putback, hf]

end

/-- C2 (witness): `x = 5;` at primary level, and the session `x = 5; x + 2; q`,
which prints 5 and then 7. -/
theorem primary_assignment_witness :
    primary (3 + 1) (Sys.start "x = 5;" : Sys Dbl) =
      .ok (Dbl.ofNat 5)
        { (Sys.buffered (token.ofChar ';') "" : Sys Dbl) with
          vars := (Sys.buffered (token.ofChar ';') "" : Sys Dbl).vars.set
            (token.named name "x" : token Dbl).name (Dbl.ofNat 5) } ∧
    calculate 12 (Sys.start "x = 5; x + 2; q" : Sys Dbl) = .ok () sevenEnd :=
  ⟨(primary_assignment 3 (Sys.start "x = 5;") (Sys.start " = 5;") (Sys.start " 5;")
      (Sys.buffered (token.ofChar ';') "") (token.named name "x") (token.ofChar assign)
      (Dbl.ofNat 5) (by decide!) (by decide!) (by decide!) (by decide!) (by decide!)).1,
    by decide!⟩

/-- C2 (counterexample): on `x = y = 2;` from the initial table, `primary`
returns 2 and leaves a table that is not the initial table with `x` mapped
to 2: it maps `y` as well, which the initial table does not define. -/
theorem primary_assignment_counterexample :
    primary 8 (Sys.start "x = y = 2;" : Sys Dbl) = .ok (Dbl.ofNat 2) chainedEnd ∧
    chainedEnd.vars ≠ (Sys.start "x = y = 2;" : Sys Dbl).vars.set "x" (Dbl.ofNat 2) ∧
    chainedEnd.vars.find "y" = some (Dbl.ofNat 2) ∧
    ((Sys.start "x = y = 2;" : Sys Dbl).vars.set "x" (Dbl.ofNat 2)).find "y" = none :=
  ⟨by decide!, by decide!, by decide!, by decide!⟩

/-- C3 (witness): `term` on `10 / 0;` returns plus infinity and writes the
diagnostic. -/
theorem termLoop_div_zero_witness :
    term (1 + 2) (Sys.start "10 / 0;" : Sys Dbl) =
      .ok DoubleOps.infinity
        { (Sys.start ";" : Sys Dbl) with
          cerr := (Sys.start ";" : Sys Dbl).cerr ++ ["Error: Division by zero.\n"] } :=
  (termLoop_div_zero 1 (Dbl.ofNat 10) (Sys.start " / 0;") (Sys.start " 0;") (Sys.start ";")
    (token.ofChar '/') (Dbl.ofNat 0) (by decide!) (by decide!) (by decide!) (by decide!)).2
    (Sys.start "10 / 0;") (by decide!)

/-- C8 (witness): `-5 * -2;` evaluates to `(-5) * (-2)`, which is 10. -/
theorem primary_unary_minus_witness :
    primary (1 + 1) (Sys.start "-5 * -2;" : Sys Dbl) =
      .ok (DoubleOps.neg (Dbl.ofNat 5)) (Sys.start " * -2;") ∧
    (∃ n0, ∀ m, n0 ≤ m → expression m (Sys.start "-5 * -2;" : Sys Dbl) =
      .ok (DoubleOps.mul (DoubleOps.neg (Dbl.ofNat 5)) (DoubleOps.neg (Dbl.ofNat 2)))
        { (Sys.start "-5 * -2;" : Sys Dbl) with
          ts := { full := true, buffer := token.ofChar ';', input := [] } }) ∧
    DoubleOps.mul (DoubleOps.neg (Dbl.ofNat 5)) (DoubleOps.neg (Dbl.ofNat 2)) = Dbl.ofNat 10 :=
  ⟨(primary_unary_minus 1 (Sys.start "-5 * -2;") (Sys.start "5 * -2;") (Sys.start " * -2;")
      (token.ofChar '-') (Dbl.ofNat 5) (by decide!) (by decide!) (by decide!)).1,
    (primary_unary_minus 1 (Sys.start "-5 * -2;") (Sys.start "5 * -2;") (Sys.start " * -2;")
      (token.ofChar '-') (Dbl.ofNat 5) (by decide!) (by decide!) (by decide!)).2.1
      (Sys.start "-5 * -2;") (Dbl.ofNat 5) (Dbl.ofNat 2) (token.ofChar ';') []
      (Reads_of_readsB (by decide!)) (by decide!),
    by decide!⟩

/-- C9 (witness): the texts `pi;` and `e;` from the initial table. -/
theorem expression_predefined_witness :
    (∀ m, 4 ≤ m → expression m (Sys.start "pi;" : Sys Dbl) =
      .ok (DoubleOps.lit 314159 5)
        { (Sys.start "pi;" : Sys Dbl) with
          ts := { full := true, buffer := token.ofChar ';', input := [] } }) ∧
    (∀ m, 4 ≤ m → expression m (Sys.start "e;" : Sys Dbl) =
      .ok (DoubleOps.lit 271828 5)
        { (Sys.start "e;" : Sys Dbl) with
          ts := { full := true, buffer := token.ofChar ';', input := [] } }) :=
  ⟨expression_predefined (Sys.start "pi;") rfl "pi" (DoubleOps.lit 314159 5) (by decide!)
      (token.ofChar ';') [] (Reads_of_readsB (by decide!)) (by decide!),
    expression_predefined (Sys.start "e;") rfl "e" (DoubleOps.lit 271828 5) (by decide!)
      (token.ofChar ';') [] (Reads_of_readsB (by decide!)) (by decide!)⟩

/-- C10 (witness): `putback` of `+` on a stream that holds `;` in its buffer. -/
theorem putback_full_witness :
    (Sys.buffered (token.ofChar ';') "" : Sys Dbl).ts.putback (token.ofChar '+') =
      .error "putback() into a full buffer" (Sys.buffered (token.ofChar ';') "" : Sys Dbl).ts :=
  (putback_full (Sys.buffered (token.ofChar ';') "" : Sys Dbl).ts (token.ofChar '+')
    (by decide!)).1

section
variable {D : Type} [DoubleOps D]

/-! ## Error recovery: what is used up before a throw -/

theorem Advances.refl {E : Type} (a : token_stream E) : Advances a a :=
  Or.inr ⟨[], by simp, by simp⟩

theorem Advances.trans {E : Type} {a b c : token_stream E} (h1 : Advances a b)
    (h2 : Advances b c) : Advances a c := by
  rcases h2 with h2 | ⟨w2, hw2, h2⟩
  · exact Or.inl h2
  · rcases h1 with h1 | ⟨w1, hw1, h1⟩
    · rw [h1] at h2
      have : c.visible = [] := by
        have := congrArg List.length h2
        simp at this
        exact List.length_eq_zero.1 (by omega)
      exact Or.inl this
    · refine Or.inr ⟨w1 ++ w2, ?_, ?_⟩
      · simp [hw1, hw2]
      · rw [h1, h2, List.append_assoc]

theorem skipws_decomp (cs : List Char) :
    ∃ w, print ∉ w ∧ cs = w ++ skipws cs := by
  induction cs with
  | nil => exact ⟨[], by simp, by simp [skipws]⟩
  | cons c cs ih =>
    by_cases h : isspace c = true
    · obtain ⟨w, hw, hcs⟩ := ih
      refine ⟨c :: w, ?_, ?_⟩
      · simp only [List.mem_cons, not_or]
        refine ⟨?_, hw⟩
        rintro rfl
        revert h
        decide
      · simp only [skipws, h, if_true, List.cons_append]
        rw [← hcs]
    · exact ⟨[], by simp, by simp [skipws, h]⟩

theorem takeWhile_identChar_no_print (cs : List Char) : print ∉ cs.takeWhile identChar := by
  intro h
  have := List.mem_takeWhile_imp h
  revert this
  decide

/-- What one call of `lex` uses up. -/
theorem lex_visible (hx : LawfulExtract D) {cs cs1 : List Char} {t : token D}
    (h : lex cs = .ok t cs1) :
    (t.kind = print → ∃ w, print ∉ w ∧ cs = w ++ print :: cs1) ∧
    (t.kind ≠ print → cs1 = [] ∨ ∃ w, print ∉ w ∧ cs = w ++ cs1) := by
  obtain ⟨w0, hw0, hcs⟩ := skipws_decomp cs
  unfold lex readChar at h
  cases hs : skipws cs with
  | nil => rw [hs] at h; simp at h
  | cons ch rest =>
    rw [hs] at h hcs
    simp only at h
    split at h
    · rename_i hp
      simp only [Res.ok.injEq] at h
      obtain ⟨rfl, rfl⟩ := h
      refine ⟨fun hk => ?_, fun hk => Or.inr ⟨w0 ++ [ch], ?_, ?_⟩⟩
      · simp only [token.ofChar] at hk
        exact ⟨w0, hw0, by rw [hcs, hk]⟩
      · simp only [token.ofChar] at hk
        simp [hw0, Ne.symm hk]
      · rw [hcs]; simp
    · split at h
      · cases he : (DoubleOps.extract (ch :: rest) : Option (D × List Char)) with
        | none =>
          rw [he] at h
          simp only [Res.ok.injEq] at h
          obtain ⟨rfl, rfl⟩ := h
          exact ⟨fun hk => absurd hk (by simp [token.ofDouble, number, print]),
            fun _ => Or.inl rfl⟩
        | some p =>
          obtain ⟨v, r1⟩ := p
          rw [he] at h
          simp only [Res.ok.injEq] at h
          obtain ⟨rfl, rfl⟩ := h
          obtain ⟨w1, hw1, h1⟩ := hx _ _ _ he
          refine ⟨fun hk => absurd hk (by simp [token.ofDouble, number, print]),
            fun _ => Or.inr ⟨w0 ++ w1, by simp [hw0, hw1], ?_⟩⟩
          rw [hcs, h1, List.append_assoc]
      · split at h
        · rename_i ha
          simp only [Res.ok.injEq] at h
          obtain ⟨rfl, rfl⟩ := h
          refine ⟨fun hk => absurd hk (by simp [token.named, name, print]),
            fun _ => Or.inr ⟨w0 ++ ch :: rest.takeWhile identChar, ?_, ?_⟩⟩
          · simp only [List.mem_append, List.mem_cons, not_or]
            refine ⟨hw0, ?_, takeWhile_identChar_no_print rest⟩
            rintro rfl
            revert ha
            decide
          · rw [hcs]
            simp [List.takeWhile_append_dropWhile]
        · split at h
          · rename_i heq
            simp only [Res.ok.injEq] at h
            obtain ⟨rfl, rfl⟩ := h
            refine ⟨fun hk => absurd hk (by simp [token.ofChar, assign, print]),
              fun _ => Or.inr ⟨w0 ++ [ch], ?_, by rw [hcs]; simp⟩⟩
            simp only [List.mem_append, List.mem_singleton, not_or]
            exact ⟨hw0, by rw [heq]; decide⟩
          · simp at h

end

section
variable {D : Type} [DoubleOps D]

theorem Advances.congr_right {E : Type} {a b c : token_stream E} (h : b.visible = c.visible)
    (hab : Advances a b) : Advances a c := by
  unfold Advances at *
  rw [← h]
  exact hab

theorem visible_empty {E : Type} {ts : token_stream E} (h : ts.full = false) :
    ts.visible = ts.input := by
  simp [token_stream.visible, h]

/-- What one call of `get()` uses up. -/
theorem get_visible (hx : LawfulExtract D) {ts ts1 : token_stream D} {t : token D}
    (h : ts.get = .ok t ts1) :
    (t.kind = print → ∃ w, print ∉ w ∧ ts.visible = w ++ print :: ts1.visible) ∧
    (t.kind ≠ print → Advances ts ts1) := by
  have hf1 := get_ok_not_full h
  rw [visible_empty hf1]
  cases hf : ts.full with
  | true =>
    rw [get_full hf] at h
    simp only [Res.ok.injEq] at h
    obtain ⟨rfl, rfl⟩ := h
    refine ⟨fun hk => ⟨[], by simp, by simp [token_stream.visible, hf, hk]⟩, fun hk => ?_⟩
    exact Or.inr ⟨[], by simp, by simp [token_stream.visible, hf, hk]⟩
  | false =>
    rw [get_empty hf] at h
    cases hl : (lex ts.input : Res (List Char) (token D)) <;> rw [hl] at h <;>
      simp [Res.lift] at h
    obtain ⟨rfl, rfl⟩ := h
    obtain ⟨h1, h2⟩ := lex_visible hx hl
    rw [visible_empty hf]
    refine ⟨h1, fun hk => ?_⟩
    rcases h2 hk with h3 | h3
    · exact Or.inl (by simp [token_stream.visible, hf, h3])
    · exact Or.inr (by simpa [token_stream.visible, hf] using h3)

/-- A `get()` followed by the `putback` of the token uses up no `;`. -/
theorem getput_advances (hx : LawfulExtract D) {ts ts1 : token_stream D} {t : token D}
    (h : ts.get = .ok t ts1) : Advances ts { ts1 with buffer := t, full := true } := by
  obtain ⟨h1, h2⟩ := get_visible hx h
  have hf1 := get_ok_not_full h
  by_cases hk : t.kind = print
  · obtain ⟨w, hw, hv⟩ := h1 hk
    refine Or.inr ⟨w, hw, ?_⟩
    rw [hv, visible_empty hf1]
    simp [token_stream.visible, hk]
  · refine Advances.congr_right ?_ (h2 hk)
    rw [visible_empty hf1]
    simp [token_stream.visible, hk]

theorem Delimited.weaken {E α : Type} {a b : token_stream E} {r : Res (Sys E) α}
    (hab : Advances a b) (h : Delimited b r) : Delimited a r := by
  cases r with
  | ok v s1 => exact hab.trans h
  | error msg s1 => exact fun hm => ⟨hab.trans (h hm).1, (h hm).2⟩
  | undef s1 => trivial
  | fuel => trivial

theorem Delimited.seq {E α β : Type} {a : token_stream E} {x : Res (Sys E) α}
    {k : α → Sys E → Res (Sys E) β} (hx : Delimited a x)
    (hk : ∀ v s1, x = .ok v s1 → Delimited s1.ts (k v s1)) : Delimited a (x.bind k) := by
  cases x with
  | ok v s1 => exact Delimited.weaken hx (hk v s1 rfl)
  | error msg s1 => exact hx
  | undef s1 => trivial
  | fuel => trivial

theorem not_undefined_of_head {msg : String} {c : Char} (h : msg.data.head? = some c)
    (hc : c ≠ 'U') : ¬ ∃ x : String, msg = "Undefined variable: " ++ x := by
  rintro ⟨x, rfl⟩
  simp [String.data_append] at h
  exact hc h.symm

theorem Delimited.other {E α : Type} {a : token_stream E} {msg : String} {c : Char}
    (s1 : Sys E) (h : msg.data.head? = some c) (hc : c ≠ 'U') :
    Delimited a (.error msg s1 : Res (Sys E) α) :=
  fun hm => absurd hm (not_undefined_of_head h hc)

theorem Sys.get_cases (s : Sys D) :
    (∃ t ts1, s.ts.get = .ok t ts1 ∧ s.get = .ok t { s with ts := ts1 }) ∨
    (∃ c s1, s.get = .error ("Bad token: " ++ String.singleton c) s1) ∨
    (∃ s1, s.get = .undef s1) := by
  unfold Sys.get
  cases hf : s.ts.full with
  | true => exact Or.inl ⟨_, _, get_full hf, by rw [get_full hf]; rfl⟩
  | false =>
    rw [get_empty hf]
    unfold lex
    cases readChar s.ts.input with
    | none => exact Or.inr (Or.inr ⟨_, rfl⟩)
    | some p =>
      obtain ⟨ch, rest⟩ := p
      simp only
      split
      · exact Or.inl ⟨_, _, rfl, rfl⟩
      · split
        · cases (DoubleOps.extract (ch :: rest) : Option (D × List Char)) with
          | none => exact Or.inl ⟨_, _, rfl, rfl⟩
          | some q => exact Or.inl ⟨_, _, rfl, rfl⟩
        · split
          · exact Or.inl ⟨_, _, rfl, rfl⟩
          · split
            · exact Or.inl ⟨_, _, rfl, rfl⟩
            · exact Or.inr (Or.inl ⟨ch, _, rfl⟩)

theorem Delimited.get_bind {β : Type} {s : Sys D} {k : token D → Sys D → Res (Sys D) β}
    (h : ∀ t ts1, s.ts.get = .ok t ts1 → Delimited s.ts (k t { s with ts := ts1 })) :
    Delimited s.ts (s.get.bind k) := by
  rcases Sys.get_cases s with ⟨t, ts1, hg, hs⟩ | ⟨c, s1, hs⟩ | ⟨s1, hs⟩
  · rw [hs]; exact h t ts1 hg
  · rw [hs]
    exact Delimited.other (c := 'B') s1 (by simp [String.data_append]) (by decide)
  · rw [hs]; trivial

end

section
variable {D : Type} [DoubleOps D]

theorem Delimited.ok_same {E α : Type} (s : Sys E) (v : α) (s1 : Sys E) (h : s1.ts = s.ts) :
    Delimited s.ts (.ok v s1 : Res (Sys E) α) := by
  show Advances s.ts s1.ts
  rw [h]
  exact Advances.refl _

/-- The exit of a loop: the token just read is put back. -/
theorem Delimited.putback_bind (hx : LawfulExtract D) {s : Sys D} {t : token D}
    {ts1 : token_stream D} (hg : s.ts.get = .ok t ts1) (left : D) :
    Delimited s.ts
      ((({ s with ts := ts1 } : Sys D).putback t).bind fun _ s2 => .ok left s2) := by
  rw [Sys.putback_ok (get_ok_not_full hg)]
  exact getput_advances hx hg

/-- Every return of a grammar function, and every throw of
`Undefined variable`, happens with no `;` used up. -/
theorem delimited_all (hx : LawfulExtract D) (n : Nat) :
    (∀ s : Sys D, Delimited s.ts (primary n s)) ∧
    (∀ (left : D) (s : Sys D), Delimited s.ts (termLoop n left s)) ∧
    (∀ s : Sys D, Delimited s.ts (term n s)) ∧
    (∀ (left : D) (s : Sys D), Delimited s.ts (expressionLoop n left s)) ∧
    (∀ s : Sys D, Delimited s.ts (expression n s)) := by
  induction n with
  | zero =>
    refine ⟨?_, ?_, ?_, ?_, ?_⟩ <;> intros <;>
      simp only [primary, termLoop, term, expressionLoop, expression] <;> trivial
  | succ n ih =>
    obtain ⟨hp, htl, ht, hel, he⟩ := ih
    refine ⟨?_, ?_, ?_, ?_, ?_⟩
    · intro s
      rw [primary]
      refine Delimited.get_bind fun t ts1 hg => ?_
      split
      · rename_i hk
        exact ((get_visible hx hg).2 (by rw [hk]; decide) : Advances s.ts ts1)
      · split
        · rename_i hk
          have h1 : Advances s.ts ts1 := (get_visible hx hg).2 (by rw [hk]; decide)
          refine Delimited.weaken h1 ?_
          refine Delimited.get_bind (s := { s with ts := ts1 }) fun next ts2 hg2 => ?_
          split
          · rename_i hk2
            have h2 : Advances ts1 ts2 := (get_visible hx hg2).2 (by rw [hk2]; decide)
            refine Delimited.weaken h2 (Delimited.seq (he _) fun v s3 _ => ?_)
            exact Delimited.ok_same s3 v _ rfl
          · rw [Sys.putback_ok (get_ok_not_full hg2)]
            simp only [Res.bind]
            have h2 := getput_advances hx hg2
            split
            · exact h2
            · exact fun _ => ⟨h2, rfl⟩
        · split
          · rename_i hk
            have h1 : Advances s.ts ts1 := (get_visible hx hg).2 (by rw [hk]; decide)
            refine Delimited.weaken h1 (Delimited.seq (hp _) fun v s2 _ => ?_)
            exact Delimited.ok_same s2 _ _ rfl
          · split
            · rename_i hk
              have h1 : Advances s.ts ts1 := (get_visible hx hg).2 (by rw [hk]; decide)
              refine Delimited.weaken h1 (Delimited.seq (he _) fun d s2 _ => ?_)
              refine Delimited.get_bind fun t2 ts3 hg3 => ?_
              split
              · exact Delimited.other (c := Char.ofNat 39) _ (by decide) (by decide)
              · rename_i hk3
                simp only [ne_eq, Decidable.not_not] at hk3
                exact ((get_visible hx hg3).2 (by rw [hk3]; decide) : Advances s2.ts ts3)
            · exact Delimited.other (c := 'P') _ rfl (by decide)
    · intro left s
      rw [termLoop]
      refine Delimited.get_bind fun t ts1 hg => ?_
      split
      · rename_i hk
        have h1 : Advances s.ts ts1 := (get_visible hx hg).2 (by rw [hk]; decide)
        exact Delimited.weaken h1 (Delimited.seq (hp _) fun v s2 _ => htl _ _)
      · split
        · rename_i hk
          have h1 : Advances s.ts ts1 := (get_visible hx hg).2 (by rw [hk]; decide)
          refine Delimited.weaken h1 (Delimited.seq (hp _) fun v s2 _ => ?_)
          split
          · exact Delimited.ok_same s2 _ _ rfl
          · exact htl _ _
        · exact Delimited.putback_bind hx hg left
    · intro s
      rw [term]
      exact Delimited.seq (hp _) fun v s1 _ => htl _ _
    · intro left s
      rw [expressionLoop]
      refine Delimited.get_bind fun t ts1 hg => ?_
      split
      · rename_i hk
        have h1 : Advances s.ts ts1 := (get_visible hx hg).2 (by rw [hk]; decide)
        exact Delimited.weaken h1 (Delimited.seq (ht _) fun v s2 _ => hel _ _)
      · split
        · rename_i hk
          have h1 : Advances s.ts ts1 := (get_visible hx hg).2 (by rw [hk]; decide)
          exact Delimited.weaken h1 (Delimited.seq (ht _) fun v s2 _ => hel _ _)
        · split
          · rename_i hk
            have h1 : Advances s.ts ts1 := (get_visible hx hg).2 (by rw [hk]; decide)
            refine Delimited.weaken h1 (Delimited.seq (hp _) fun v s2 _ => ?_)
            split
            · exact Delimited.other (c := 'm') _ rfl (by decide)
            · exact hel _ _
          · exact Delimited.putback_bind hx hg left
    · intro s
      rw [expression]
      exact Delimited.seq (ht _) fun v s1 _ => hel _ _

/-- The loop of `ignore` stops just after the first `;`. -/
theorem ignoreLoop_print (w rest : List Char) (hw : print ∉ w) :
    ignoreLoop print (w ++ print :: rest) = rest := by
  induction w with
  | nil => simp [ignoreLoop, print, isspace]
  | cons c w ih =>
    simp only [List.mem_cons, not_or] at hw
    simp only [List.cons_append, ignoreLoop]
    split
    · exact ih hw.2
    · rw [if_neg (Ne.symm hw.1)]
      exact ih hw.2

/-- On a stream that still shows a `;`, `ignore(';')` empties the buffer and
leaves the characters after the first `;` shown. -/
theorem ignore_visible {E : Type} (ts : token_stream E) (w rest : List Char) (hw : print ∉ w)
    (hv : ts.visible = w ++ print :: rest) :
    ts.ignore print = { ts with full := false, input := rest } := by
  unfold token_stream.ignore
  by_cases hc : ts.full = true ∧ ts.buffer.kind = print
  · have hin : ts.input = rest := by
      simp only [token_stream.visible, hc, and_self, if_true] at hv
      cases w with
      | nil => simpa using hv
      | cons c w =>
        simp only [List.cons_append, List.singleton_append, List.cons.injEq] at hv
        exact absurd (hv.1 ▸ List.mem_cons_self _ _) hw
    simp [hc, hin]
  · have hin : ts.input = w ++ print :: rest := by
      simpa [token_stream.visible, hc] using hv
    have hc2 : (ts.full && print == ts.buffer.kind) = false := by
      rw [Bool.and_eq_false_iff]
      by_cases hf : ts.full = true
      · right
        have : ts.buffer.kind ≠ print := fun h => hc ⟨hf, h⟩
        simpa using Ne.symm this
      · left
        simpa using hf
    simp only [hc2, Bool.false_eq_true, if_false, hin, ignoreLoop_print w rest hw]

end

section
variable {D : Type} [DoubleOps D]

/-! ## Sessions in agreement run alike -/

theorem Res.Rel.bindBoth {σ α β : Type} {r : σ → σ → Prop} {x y : Res σ α}
    {k j : α → σ → Res σ β} (hxy : Res.Rel r x y)
    (hk : ∀ a s t, r s t → Res.Rel r (k a s) (j a t)) : Res.Rel r (x.bind k) (y.bind j) := by
  cases x <;> cases y <;> simp only [Res.Rel] at hxy <;> try exact hxy.elim
  · obtain ⟨rfl, h⟩ := hxy
    exact hk _ _ _ h
  · exact hxy
  · exact hxy
  · trivial

theorem Agree.get {ca cb : List (Out D)} {ea eb : List String} {a b : Sys D}
    (h : Agree ca cb ea eb a b) : Res.Rel (Agree ca cb ea eb) a.get b.get := by
  unfold Sys.get
  cases hf : a.ts.full with
  | true =>
    rw [get_full hf, get_full (h.full ▸ hf)]
    exact ⟨h.buffer hf, ⟨rfl, fun hc => by simp at hc, h.input, h.vars, h.cout, h.cerr⟩⟩
  | false =>
    rw [get_empty hf, get_empty (h.full ▸ hf), ← h.input]
    cases (lex a.ts.input : Res (List Char) (token D)) with
    | ok t r =>
      exact ⟨rfl, ⟨h.full, fun hc => by simp [hf] at hc, rfl, h.vars, h.cout, h.cerr⟩⟩
    | error m r =>
      exact ⟨rfl, ⟨h.full, fun hc => by simp [hf] at hc, rfl, h.vars, h.cout, h.cerr⟩⟩
    | undef r => exact ⟨h.full, fun hc => by simp [hf] at hc, rfl, h.vars, h.cout, h.cerr⟩
    | fuel => trivial

theorem Agree.putback {E : Type} {ca cb : List (Out E)} {ea eb : List String} {a b : Sys E}
    (h : Agree ca cb ea eb a b) (t : token E) :
    Res.Rel (Agree ca cb ea eb) (a.putback t) (b.putback t) := by
  unfold Sys.putback token_stream.putback
  cases hf : a.ts.full with
  | true =>
    have hb : b.ts.full = true := h.full ▸ hf
    simp only [hb, if_true, Res.lift]
    exact ⟨rfl, ⟨h.full, h.buffer, h.input, h.vars, h.cout, h.cerr⟩⟩
  | false =>
    have hb : b.ts.full = false := h.full ▸ hf
    simp only [hb, Bool.false_eq_true, if_false, Res.lift]
    exact ⟨rfl, ⟨rfl, fun _ => rfl, h.input, h.vars, h.cout, h.cerr⟩⟩

theorem Agree.set_vars {E : Type} {ca cb : List (Out E)} {ea eb : List String} {a b : Sys E}
    (h : Agree ca cb ea eb a b) (k : String) (v : E) :
    Agree ca cb ea eb { a with vars := a.vars.set k v } { b with vars := b.vars.set k v } :=
  ⟨h.full, h.buffer, h.input, by simp [h.vars], h.cout, h.cerr⟩

theorem Agree.add_cerr {E : Type} {ca cb : List (Out E)} {ea eb : List String} {a b : Sys E}
    (h : Agree ca cb ea eb a b) (l : List String) :
    Agree ca cb ea eb { a with cerr := a.cerr ++ l } { b with cerr := b.cerr ++ l } := by
  obtain ⟨l2, h1, h2⟩ := h.cerr
  exact ⟨h.full, h.buffer, h.input, h.vars, h.cout, ⟨l2 ++ l, by simp [h1], by simp [h2]⟩⟩

theorem Agree.add_cout {E : Type} {ca cb : List (Out E)} {ea eb : List String} {a b : Sys E}
    (h : Agree ca cb ea eb a b) (l : List (Out E)) :
    Agree ca cb ea eb { a with cout := a.cout ++ l } { b with cout := b.cout ++ l } := by
  obtain ⟨l2, h1, h2⟩ := h.cout
  exact ⟨h.full, h.buffer, h.input, h.vars, ⟨l2 ++ l, by simp [h1], by simp [h2]⟩, h.cerr⟩

theorem Res.Rel.iteBoth {σ α : Type} {r : σ → σ → Prop} {c : Prop} [Decidable c]
    {x x1 y y1 : Res σ α} (hx : Res.Rel r x x1) (hy : Res.Rel r y y1) :
    Res.Rel r (if c then x else y) (if c then x1 else y1) := by
  split
  · exact hx
  · exact hy

/-- Run from two sessions in agreement, each grammar function has the same
outcome, and leaves the sessions in agreement. -/
theorem agree_all (ca cb : List (Out D)) (ea eb : List String) (n : Nat) :
    (∀ a b : Sys D, Agree ca cb ea eb a b →
      Res.Rel (Agree ca cb ea eb) (primary n a) (primary n b)) ∧
    (∀ (left : D) (a b : Sys D), Agree ca cb ea eb a b →
      Res.Rel (Agree ca cb ea eb) (termLoop n left a) (termLoop n left b)) ∧
    (∀ a b : Sys D, Agree ca cb ea eb a b →
      Res.Rel (Agree ca cb ea eb) (term n a) (term n b)) ∧
    (∀ (left : D) (a b : Sys D), Agree ca cb ea eb a b →
      Res.Rel (Agree ca cb ea eb) (expressionLoop n left a) (expressionLoop n left b)) ∧
    (∀ a b : Sys D, Agree ca cb ea eb a b →
      Res.Rel (Agree ca cb ea eb) (expression n a) (expression n b)) := by
  induction n with
  | zero =>
    refine ⟨?_, ?_, ?_, ?_, ?_⟩ <;> intros <;>
      simp only [primary, termLoop, term, expressionLoop, expression] <;> trivial
  | succ n ih =>
    obtain ⟨hp, htl, ht, hel, he⟩ := ih
    refine ⟨?_, ?_, ?_, ?_, ?_⟩
    · intro a b hab
      rw [primary, primary]
      refine Res.Rel.bindBoth hab.get fun t s1 s2 h1 => ?_
      refine Res.Rel.iteBoth ⟨rfl, h1⟩ (Res.Rel.iteBoth ?_ (Res.Rel.iteBoth ?_ (Res.Rel.iteBoth ?_ ⟨rfl, h1⟩)))
      · refine Res.Rel.bindBoth h1.get fun next s3 s4 h3 => ?_
        refine Res.Rel.iteBoth ?_ ?_
        · exact Res.Rel.bindBoth (he _ _ h3) fun v s5 s6 h5 => ⟨rfl, h5.set_vars _ _⟩
        · refine Res.Rel.bindBoth (h3.putback next) fun _ s5 s6 h5 => ?_
          rw [h5.vars]
          cases s6.vars.find t.name with
          | none => exact ⟨rfl, h5⟩
          | some v => exact ⟨rfl, h5⟩
      · exact Res.Rel.bindBoth (hp _ _ h1) fun v s3 s4 h3 => ⟨rfl, h3⟩
      · refine Res.Rel.bindBoth (he _ _ h1) fun d s3 s4 h3 => ?_
        exact Res.Rel.bindBoth h3.get fun t2 s5 s6 h5 => Res.Rel.iteBoth ⟨rfl, h5⟩ ⟨rfl, h5⟩
    · intro left a b hab
      rw [termLoop, termLoop]
      refine Res.Rel.bindBoth hab.get fun t s1 s2 h1 => ?_
      refine Res.Rel.iteBoth ?_ (Res.Rel.iteBoth ?_ ?_)
      · exact Res.Rel.bindBoth (hp _ _ h1) fun v s3 s4 h3 => htl _ _ _ h3
      · refine Res.Rel.bindBoth (hp _ _ h1) fun v s3 s4 h3 => ?_
        exact Res.Rel.iteBoth ⟨rfl, h3.add_cerr _⟩ (htl _ _ _ h3)
      · exact Res.Rel.bindBoth (h1.putback t) fun _ s3 s4 h3 => ⟨rfl, h3⟩
    · intro a b hab
      rw [term, term]
      exact Res.Rel.bindBoth (hp _ _ hab) fun v s1 s2 h1 => htl _ _ _ h1
    · intro left a b hab
      rw [expressionLoop, expressionLoop]
      refine Res.Rel.bindBoth hab.get fun t s1 s2 h1 => ?_
      refine Res.Rel.iteBoth ?_ (Res.Rel.iteBoth ?_ (Res.Rel.iteBoth ?_ ?_))
      · exact Res.Rel.bindBoth (ht _ _ h1) fun v s3 s4 h3 => hel _ _ _ h3
      · exact Res.Rel.bindBoth (ht _ _ h1) fun v s3 s4 h3 => hel _ _ _ h3
      · refine Res.Rel.bindBoth (hp _ _ h1) fun v s3 s4 h3 => ?_
        exact Res.Rel.iteBoth ⟨rfl, h3⟩ (hel _ _ _ h3)
      · exact Res.Rel.bindBoth (h1.putback t) fun _ s3 s4 h3 => ⟨rfl, h3⟩
    · intro a b hab
      rw [expression, expression]
      exact Res.Rel.bindBoth (ht _ _ hab) fun v s1 s2 h1 => hel _ _ _ h1

end

section
variable {D : Type} [DoubleOps D]

theorem Agree.skipPrints {ca cb : List (Out D)} {ea eb : List String} (n : Nat) (t : token D)
    {a b : Sys D} (h : Agree ca cb ea eb a b) :
    Res.Rel (Agree ca cb ea eb) (skipPrints n t a) (skipPrints n t b) := by
  induction n generalizing t a b with
  | zero => simp only [Calculator.skipPrints]; trivial
  | succ n ih =>
    rw [Calculator.skipPrints, Calculator.skipPrints]
    exact Res.Rel.iteBoth (Res.Rel.bindBoth h.get fun t1 s1 s2 h1 => ih t1 h1) ⟨rfl, h⟩

theorem Agree.tryBlock {ca cb : List (Out D)} {ea eb : List String} (n : Nat) {a b : Sys D}
    (h : Agree ca cb ea eb a b) :
    Res.Rel (Agree ca cb ea eb) (tryBlock n a) (tryBlock n b) := by
  unfold Calculator.tryBlock
  refine Res.Rel.bindBoth (h.add_cout _).get fun t s1 s2 h1 => ?_
  refine Res.Rel.bindBoth (h1.skipPrints n t) fun t1 s3 s4 h3 => ?_
  refine Res.Rel.iteBoth ⟨rfl, h3⟩ ?_
  refine Res.Rel.bindBoth (h3.putback t1) fun _ s5 s6 h5 => ?_
  refine Res.Rel.bindBoth ((agree_all ca cb ea eb n).2.2.2.2 _ _ (h5.add_cout _)) ?_
  exact fun v s7 s8 h7 => ⟨rfl, h7.add_cout _⟩

theorem Agree.handler {E : Type} {ca cb : List (Out E)} {ea eb : List String} (msg : String)
    {a b : Sys E} (h : Agree ca cb ea eb a b) :
    Agree ca cb ea eb (handler msg a) (handler msg b) := by
  have h1 := h.add_cerr [msg ++ "\n"]
  unfold Calculator.handler clean_up_mess token_stream.ignore
  refine ⟨?_, ?_, ?_, h1.vars, h1.cout, h1.cerr⟩
  · split <;> split <;> rfl
  · intro hf
    split at hf <;> simp at hf
  · have e1 := h.full
    have e3 := h.input
    by_cases hf : a.ts.full = true
    · have e2 := h.buffer hf
      simp only [← e1, ← e2, ← e3]
    · have hb : b.ts.full = false := by rw [← e1]; simpa using hf
      have ha : a.ts.full = false := by simpa using hf
      simp [ha, hb, e3]

/-- Run from two sessions in agreement, the session loop has the same
outcome and writes the same. -/
theorem Agree.calculate {ca cb : List (Out D)} {ea eb : List String} (n : Nat) {a b : Sys D}
    (h : Agree ca cb ea eb a b) :
    Res.Rel (Agree ca cb ea eb) (calculate n a) (calculate n b) := by
  induction n generalizing a b with
  | zero => simp only [Calculator.calculate]; trivial
  | succ n ih =>
    rw [Calculator.calculate, Calculator.calculate]
    have ht := h.tryBlock n
    cases h1 : Calculator.tryBlock n a <;> cases h2 : Calculator.tryBlock n b <;>
      rw [h1, h2] at ht <;> simp only [Res.Rel] at ht <;> try exact ht.elim
    · obtain ⟨rfl, hs⟩ := ht
      rename_i q _ _
      cases q
      · exact ih hs
      · exact ⟨rfl, hs⟩
    · obtain ⟨rfl, hs⟩ := ht
      exact ih (hs.handler _)
    · exact ht
    · trivial

/-- Splitting a text at its first `;` in two ways. -/
theorem first_print_split {w w1 rest v : List Char} (hw : print ∉ w) (hw1 : print ∉ w1)
    (h : w ++ print :: rest = w1 ++ v) :
    ∃ w2, print ∉ w2 ∧ v = w2 ++ print :: rest := by
  induction w generalizing w1 with
  | nil =>
    cases w1 with
    | nil => exact ⟨[], by simp, by simpa using h.symm⟩
    | cons c w1 =>
      simp only [List.nil_append, List.cons_append, List.cons.injEq] at h
      exact absurd (h.1 ▸ List.mem_cons_self _ _) hw1
  | cons c w ih =>
    cases w1 with
    | nil =>
      refine ⟨c :: w, hw, ?_⟩
      simpa using h.symm
    | cons d w1 =>
      simp only [List.cons_append, List.cons.injEq] at h
      simp only [List.mem_cons, not_or] at hw hw1
      exact ih hw.2 hw1.2 h.2

/-- After `expression` throws `Undefined variable`, the handler leaves the
session just after the first `;` that was still to be seen when `expression`
was called, unless the character stream failed in between. -/
theorem handler_after_undefined (hx : LawfulExtract D) (n : Nat) (s s1 : Sys D) (x : String)
    (w rest : List Char) (he : expression n s = .error ("Undefined variable: " ++ x) s1)
    (hv : s.ts.visible = w ++ print :: rest) (hw : print ∉ w) (hlive : s1.ts.visible ≠ []) :
    handler ("Undefined variable: " ++ x) s1 =
      { s1 with
        ts := { s1.ts with full := false, input := rest }
        cerr := s1.cerr ++ [("Undefined variable: " ++ x) ++ "\n"] } := by
  have hd := (delimited_all hx n).2.2.2.2 s
  rw [he] at hd
  obtain ⟨hadv, -⟩ := hd ⟨x, rfl⟩
  rcases hadv with h0 | ⟨w1, hw1, h1⟩
  · exact absurd h0 hlive
  · rw [hv] at h1
    obtain ⟨w2, hw2, h2⟩ := first_print_split hw hw1 h1
    unfold handler clean_up_mess
    simp only [ignore_visible s1.ts w2 rest hw2 h2]

end

/-- The decimal extraction of `Dbl` uses up digits and a point only. -/
theorem Dbl.lawfulExtract : LawfulExtract Dbl := by
  intro cs v r h
  have hd : ∀ l : List Char, print ∉ l.takeWhile Char.isDigit := fun l hmem => by
    have := List.mem_takeWhile_imp hmem
    revert this
    decide
  change Dbl.extract cs = some (v, r) at h
  unfold Dbl.extract at h
  simp only at h
  split at h
  · rename_i r2 hr2
    split at h
    · simp at h
    · simp only [Option.some.injEq, Prod.mk.injEq] at h
      refine ⟨cs.takeWhile Char.isDigit ++ '.' :: r2.takeWhile Char.isDigit, ?_, ?_⟩
      · simp only [List.mem_append, List.mem_cons, not_or]
        exact ⟨hd cs, by decide, hd r2⟩
      · rw [← h.2, List.append_assoc, List.cons_append, List.takeWhile_append_dropWhile,
          ← hr2, List.takeWhile_append_dropWhile]
  · split at h
    · simp at h
    · simp only [Option.some.injEq, Prod.mk.injEq] at h
      exact ⟨cs.takeWhile Char.isDigit, hd cs, by
        rw [← h.2, List.takeWhile_append_dropWhile]⟩

section
variable {D : Type} [DoubleOps D]

/-- C5 (amended): `primary` on an identifier followed by a token other
than `=` returns the mapped value when the table defines the identifier and
throws `Undefined variable` when it does not, and leaves the table as it was
in both cases.  After `expression` throws `Undefined variable`, the handler of
the session loop leaves the buffer empty and the stream just after the first
`;` that was still to be seen when `expression` was called (unless the
character stream failed in between), and the loop goes on from there with
the table as the failed statement left it; when the failed statement left
the table as it found it, the loop runs from there as a session that starts
on the text after that `;` with that table: same outcomes, same output. -/
theorem undefined_variable_recovery (hx : LawfulExtract D) (n : Nat) (s s1 : Sys D)
    (x : String) (w rest : List Char)
    (he : expression n s = .error ("Undefined variable: " ++ x) s1)
    (hv : s.ts.visible = w ++ print :: rest) (hw : print ∉ w) (hlive : s1.ts.visible ≠ []) :
    (∀ (m : Nat) (a a1 a2 : Sys D) (t next : token D), a.get = .ok t a1 → t.kind = name →
      a1.get = .ok next a2 → next.kind ≠ assign →
      a2.vars = a.vars ∧
      (∀ v, a.vars.find t.name = some v →
        primary (m + 1) a =
          .ok v { a2 with ts := { a2.ts with buffer := next, full := true } }) ∧
      (a.vars.find t.name = none →
        primary (m + 1) a =
          .error ("Undefined variable: " ++ t.name)
            { a2 with ts := { a2.ts with buffer := next, full := true } })) ∧
    handler ("Undefined variable: " ++ x) s1 =
      { s1 with
        ts := { s1.ts with full := false, input := rest }
        cerr := s1.cerr ++ [("Undefined variable: " ++ x) ++ "\n"] } ∧
    (∀ (k : Nat) (s0 : Sys D), tryBlock k s0 = .error ("Undefined variable: " ++ x) s1 →
      calculate (k + 1) s0 = calculate k (handler ("Undefined variable: " ++ x) s1)) ∧
    (s1.vars = s.vars → ∀ r0 : Sys D, r0.ts.full = false → r0.ts.input = rest →
      r0.vars = s.vars → ∀ k,
      Res.Rel
        (Agree (handler ("Undefined variable: " ++ x) s1).cout r0.cout
          (handler ("Undefined variable: " ++ x) s1).cerr r0.cerr)
        (calculate k (handler ("Undefined variable: " ++ x) s1)) (calculate k r0)) := by
  have hh := handler_after_undefined hx n s s1 x w rest he hv hw hlive
  refine ⟨?_, hh, ?_, ?_⟩
  · intro m a a1 a2 t next g1 k1 g2 k2
    have hp := primary_lookup m g1 k1 g2 k2
    refine ⟨?_, fun v hf => ?_, fun hf => ?_⟩
    · obtain ⟨_, _, rfl⟩ := Sys.get_ok_iff.1 g1
      obtain ⟨_, _, rfl⟩ := Sys.get_ok_iff.1 g2
      rfl
    · rw [hp, hf]
    · rw [hp, hf]
  · intro k s0 ht
    rw [calculate, ht]
  · intro hvars r0 hf hi hr k
    refine Agree.calculate k ?_
    rw [hh]
    exact ⟨hf.symm, fun hc => by simp at hc, hi.symm, by rw [hvars, hr],
      ⟨[], by simp, by simp⟩, ⟨[], by simp, by simp⟩⟩

end

/-- C5 (witness): `expression` on `y + 1; 2; q` throws with `+` in the
buffer, and the handler leaves the session at ` 2; q`. -/
theorem undefined_variable_recovery_witness :
    handler ("Undefined variable: " ++ "y") lookupThrow =
      { lookupThrow with
        ts := { lookupThrow.ts with full := false, input := " 2; q".data }
        cerr := lookupThrow.cerr ++ [("Undefined variable: " ++ "y") ++ "\n"] } :=
  (undefined_variable_recovery Dbl.lawfulExtract 5 (Sys.start "y + 1; 2; q") lookupThrow "y"
    "y + 1".data " 2; q".data (by decide!) (by decide!) (by decide!) (by decide!)).2.1

/-- C5 (counterexample): in the session `(x = 1) + y; x; q` the first
statement throws `Undefined variable: y` and the statement after the next `;`
prints 1; in the session `x; q`, which is the same without the failed
statement, that statement throws `Undefined variable: x` and prints no
value. -/
theorem undefined_variable_recovery_counterexample :
    calculate 14 (Sys.start "(x = 1) + y; x; q" : Sys Dbl) = .ok () leakEnd ∧
    calculate 14 (Sys.start "x; q" : Sys Dbl) = .ok () undefinedEnd ∧
    Out.num (Dbl.ofNat 1) ∈ leakEnd.cout ∧
    (∀ v, Out.num v ∉ undefinedEnd.cout) ∧
    leakEnd.cerr = ["Undefined variable: y\n"] ∧
    undefinedEnd.cerr = ["Undefined variable: x\n"] :=
  ⟨by decide!, by decide!, by decide!, fun v => by simp [undefinedEnd], by decide!, by decide!⟩

/-- C6 (the code at the failing input): in the session `1 + ; 2 ; q` the
first statement throws `Primary expected` once its own `;` has been read, the
handler then discards the text up to the `;` of the second statement, and the
session ends at `q` without having printed the value of `2`. -/
theorem recovery_skips_statement :
    tryBlock 4 (Sys.start "1 + ; 2 ; q" : Sys Dbl) = .error "Primary expected" danglingThrow ∧
    danglingThrow.ts.input = " 2 ; q".data ∧
    (handler "Primary expected" danglingThrow).ts.input = " q".data ∧
    calculate 8 (Sys.start "1 + ; 2 ; q" : Sys Dbl) = .ok () danglingEnd ∧
    (∀ v, Out.num v ∉ danglingEnd.cout) :=
  ⟨by decide!, by decide!, by decide!, by decide!, fun v => by simp [danglingEnd]⟩

/-- C4 (witness): from the running value 10, `% 0` throws `modulo by zero` and
`% 3` followed by `;` returns 1. -/
theorem expressionLoop_mod_zero_iff_witness :
    expressionLoop (1 + 1) (Dbl.ofNat 10) (Sys.start " % 0;" : Sys Dbl) =
      .error "modulo by zero" (Sys.start ";") ∧
    expressionLoop (1 + 2) (Dbl.ofNat 10) (Sys.start " % 3;" : Sys Dbl) =
      .ok (DoubleOps.fmod (Dbl.ofNat 10) (Dbl.ofNat 3))
        { (Sys.start "" : Sys Dbl) with
          ts := { (Sys.start "" : Sys Dbl).ts with buffer := token.ofChar ';', full := true } } ∧
    DoubleOps.fmod (Dbl.ofNat 10) (Dbl.ofNat 3) = Dbl.ofNat 1 :=
  ⟨(expressionLoop_mod_zero_iff 1 (Dbl.ofNat 10) (Sys.start " % 0;") (Sys.start " 0;")
      (Sys.start ";") (token.ofChar '%') (Dbl.ofNat 0) (by decide!) (by decide!)
      (by decide!)).1 (by decide!),
    ((expressionLoop_mod_zero_iff 1 (Dbl.ofNat 10) (Sys.start " % 3;") (Sys.start " 3;")
      (Sys.start ";") (token.ofChar '%') (Dbl.ofNat 3) (by decide!) (by decide!)
      (by decide!)).2.2 (by decide!) (token.ofChar ';') (Sys.start "") (by decide!)
      (by decide!) (by decide!) (by decide!)).1,
    by decide!⟩

section
variable {D : Type} [DoubleOps D]

/-! ## The lexer -/

theorem readChar_of_skipws {input rest : List Char} {c : Char} (h : skipws input = c :: rest) :
    readChar input = some (c, rest) := by
  simp [readChar, h]

theorem alpha_not_punctuation {c : Char} (ha : isalpha c = true) (hq : c ≠ 'q') :
    c ∉ punctuation := by
  intro h
  simp only [punctuation, List.mem_cons, List.mem_singleton, List.not_mem_nil, or_false] at h
  rcases h with rfl | rfl | rfl | rfl | rfl | rfl | rfl | rfl | rfl <;>
    first | exact hq rfl | (revert ha; decide)

theorem alpha_not_numberStart {c : Char} (ha : isalpha c = true) : c ∉ numberStart := by
  intro h
  simp only [numberStart, List.mem_cons, List.mem_singleton, List.not_mem_nil, or_false] at h
  rcases h with rfl | rfl | rfl | rfl | rfl | rfl | rfl | rfl | rfl | rfl | rfl <;>
    (revert ha; decide)

/-- The tokens of kind `name` that `lex` returns are identifiers that begin
with an alphabetic character outside the punctuation. -/
theorem lex_name {cs cs1 : List Char} {t : token D} (h : lex cs = .ok t cs1)
    (hk : t.kind = name) :
    ∃ c run, t.name = String.mk (c :: run) ∧ isalpha c = true ∧ c ∉ punctuation := by
  unfold lex at h
  cases hr : readChar cs with
  | none => rw [hr] at h; simp at h
  | some p =>
    obtain ⟨ch, rest⟩ := p
    rw [hr] at h
    simp only at h
    split at h
    · rename_i hp
      simp only [Res.ok.injEq] at h
      rw [← h.1] at hk
      simp only [token.ofChar] at hk
      rw [hk] at hp
      exact absurd hp (by decide)
    · rename_i hp
      split at h
      · cases he : (DoubleOps.extract (ch :: rest) : Option (D × List Char)) <;>
          rw [he] at h <;> simp only [Res.ok.injEq] at h <;> rw [← h.1] at hk <;>
          exact absurd hk (by simp [token.ofDouble, number, name])
      · split at h
        · rename_i ha
          simp only [Res.ok.injEq] at h
          exact ⟨ch, rest.takeWhile identChar, by rw [← h.1]; rfl, ha, hp⟩
        · split at h
          · simp only [Res.ok.injEq] at h
            rw [← h.1] at hk
            exact absurd hk (by simp [token.ofChar, assign, name])
          · simp at h

/-- C11: on a stream whose buffer is empty, `putback(t)` followed by `get()`
returns `t` itself and reads no character: the buffer is empty again and the
characters to read are the same.  The stream differs from the one before the
`putback` in the unoccupied slot alone, which now holds `t`; `get()` and
`ignore` run on it as on the stream before. -/
theorem putback_then_get (ts : token_stream D) (t : token D) (hf : ts.full = false) :
    ts.putback t = .ok () { ts with buffer := t, full := true } ∧
    ({ ts with buffer := t, full := true } : token_stream D).get =
      .ok t { ts with buffer := t } ∧
    ({ ts with buffer := t } : token_stream D).full = false ∧
    ({ ts with buffer := t } : token_stream D).input = ts.input ∧
    ({ ts with buffer := t } : token_stream D).get =
      ts.get.lift (fun ts1 => { ts1 with buffer := t }) ∧
    (∀ c, ({ ts with buffer := t } : token_stream D).ignore c =
      { ts.ignore c with buffer := t }) := by
  refine ⟨putback_empty hf t, ?_, hf, rfl, ?_, fun c => ?_⟩
  · rw [get_full rfl]
    simp [hf]
  · rw [get_empty hf, get_empty (by exact hf)]
    cases (lex ts.input : Res (List Char) (token D)) <;> rfl
  · simp [token_stream.ignore, hf]

/-- C12: with the buffer empty, when the first character after the leading
whitespace is one of `( ) ; q + - * / %` or `=`, `get()` returns the token of
that kind (`assign` is `=`) and leaves the characters after it to read,
whatever they are.  So `q` is the quit token whatever follows it, and no
token of kind `name` that `get()` reads from the characters has a name that
begins with `q`. -/
theorem get_punctuation (ts : token_stream D) (c : Char) (rest : List Char)
    (hf : ts.full = false) (hs : skipws ts.input = c :: rest)
    (hc : c ∈ punctuation ∨ c = assign) :
    ts.get = .ok (token.ofChar c) { ts with input := rest } ∧
    (token.ofChar c : token D).kind = c ∧
    (∀ (ts0 ts1 : token_stream D) (t : token D), ts0.full = false → ts0.get = .ok t ts1 →
      t.kind = name → t.name.data.head? ≠ some 'q') := by
  refine ⟨?_, rfl, ?_⟩
  · rw [get_empty hf]
    unfold lex
    rw [readChar_of_skipws hs]
    rcases hc with hc | hc
    · simp [hc, Res.lift]
    · subst hc
      simp [punctuation, numberStart, assign, isalpha, Res.lift, Char.isAlpha, Char.isUpper,
        Char.isLower]
  · intro ts0 ts1 t h0 hg hk
    rw [get_empty h0] at hg
    cases hl : (lex ts0.input : Res (List Char) (token D)) <;> rw [hl] at hg <;>
      simp [Res.lift] at hg
    obtain ⟨rfl, -⟩ := hg
    obtain ⟨ch, run, hn, -, hp⟩ := lex_name hl hk
    rw [hn]
    simp only [List.head?_cons, ne_eq, Option.some.injEq]
    rintro rfl
    exact hp (by decide)

/-- C13: with the buffer empty, when the first character after the leading
whitespace is alphabetic and is not `q`, `get()` returns the token of kind
`name` whose name is that character followed by the longest run of
characters that are alphanumeric or `_`, and leaves the characters after the
run to read: the character that ends the run is not used up. -/
theorem get_identifier (ts : token_stream D) (c : Char) (rest : List Char)
    (hf : ts.full = false) (hs : skipws ts.input = c :: rest) (ha : isalpha c = true)
    (hq : c ≠ 'q') :
    ts.get = .ok (token.named name (String.mk (c :: rest.takeWhile identChar)))
      { ts with input := rest.dropWhile identChar } ∧
    rest = rest.takeWhile identChar ++ rest.dropWhile identChar ∧
    (∀ x ∈ rest.takeWhile identChar, isalnum x = true ∨ x = '_') ∧
    (∀ d tl, rest.dropWhile identChar = d :: tl → ¬ (isalnum d = true ∨ d = '_')) := by
  refine ⟨?_, (List.takeWhile_append_dropWhile _ _).symm, fun x hx => ?_, fun d tl hd => ?_⟩
  · rw [get_empty hf]
    unfold lex
    rw [readChar_of_skipws hs]
    simp [alpha_not_punctuation ha hq, alpha_not_numberStart ha, ha, Res.lift]
  · have := List.mem_takeWhile_imp hx
    simpa [identChar] using this
  · have h1 : (rest.dropWhile identChar).head? = some d := by rw [hd]; rfl
    have := List.head?_dropWhile_not identChar rest
    rw [h1] at this
    simpa [identChar] using this

/-- C14: with the buffer empty, when the first character after the leading
whitespace is none of `( ) ; q + - * / %`, is neither a digit nor `.`, is not
alphabetic and is not `=`, `get()` throws `Bad token`; when it is in one of
these classes `get()` returns a token. -/
theorem get_bad_token (ts : token_stream D) (c : Char) (rest : List Char)
    (hf : ts.full = false) (hs : skipws ts.input = c :: rest) :
    (c ∉ punctuation → c ∉ numberStart → isalpha c = false → c ≠ assign →
      ts.get = .error ("Bad token: " ++ String.singleton c) { ts with input := rest }) ∧
    (c ∈ punctuation ∨ c ∈ numberStart ∨ isalpha c = true ∨ c = assign →
      ∃ t ts1, ts.get = .ok t ts1) := by
  rw [get_empty hf]
  unfold lex
  rw [readChar_of_skipws hs]
  refine ⟨fun h1 h2 h3 h4 => ?_, fun h => ?_⟩
  · have h4 : ¬ c = '=' := h4
    simp [h1, h2, h3, h4, Res.lift]
  · simp only
    split
    · exact ⟨_, _, rfl⟩
    · split
      · cases (DoubleOps.extract (c :: rest) : Option (D × List Char)) <;> exact ⟨_, _, rfl⟩
      · split
        · exact ⟨_, _, rfl⟩
        · split
          · exact ⟨_, _, rfl⟩
          · rename_i h1 h2 h3 h4
            rcases h with h | h | h | h
            · exact absurd h h1
            · exact absurd h h2
            · exact absurd h h3
            · exact absurd h h4

theorem ignoreLoop_nonspace (c : Char) (hc : isspace c = false) (cs : List Char) :
    ignoreLoop c cs = afterFirst c cs := by
  induction cs with
  | nil => rfl
  | cons ch cs ih =>
    simp only [ignoreLoop, afterFirst]
    by_cases hs : isspace ch = true
    · have : ch ≠ c := by
        rintro rfl
        rw [hc] at hs
        exact absurd hs (by simp)
      simp [hs, this, ih]
    · simp only [hs, Bool.false_eq_true, if_false, ih]

theorem ignoreLoop_space (c : Char) (hc : isspace c = true) (cs : List Char) :
    ignoreLoop c cs = [] := by
  induction cs with
  | nil => rfl
  | cons ch cs ih =>
    simp only [ignoreLoop]
    by_cases hs : isspace ch = true
    · simp [hs, ih]
    · have : ch ≠ c := by
        rintro rfl
        exact hs hc
      simp [hs, this, ih]

/-- C15 (amended): when the buffer holds a token whose kind is `c`,
`ignore(c)` empties the buffer and leaves the characters untouched.
Otherwise it empties the buffer and, for `c` not a whitespace character, uses
up the characters up to and including the first one equal to `c`, or all of
them when there is none; for `c` a whitespace character it uses up all the
characters.  The buffer is empty afterwards in every case. -/
theorem ignore_spec {E : Type} (ts : token_stream E) (c : Char) :
    (ts.full = true ∧ ts.buffer.kind = c → ts.ignore c = { ts with full := false }) ∧
    (¬ (ts.full = true ∧ ts.buffer.kind = c) → isspace c = false →
      ts.ignore c = { ts with full := false, input := afterFirst c ts.input }) ∧
    (¬ (ts.full = true ∧ ts.buffer.kind = c) → isspace c = true →
      ts.ignore c = { ts with full := false, input := [] }) ∧
    (ts.ignore c).full = false := by
  have hcond : ∀ h : ¬ (ts.full = true ∧ ts.buffer.kind = c),
      (ts.full && c == ts.buffer.kind) = false := fun h => by
    rw [Bool.and_eq_false_iff]
    by_cases hf : ts.full = true
    · right
      have : ts.buffer.kind ≠ c := fun hk => h ⟨hf, hk⟩
      simpa using Ne.symm this
    · left
      simpa using hf
  refine ⟨fun h => ?_, fun h hc => ?_, fun h hc => ?_, ?_⟩
  · simp [token_stream.ignore, h.1, h.2]
  · simp only [token_stream.ignore, hcond h, Bool.false_eq_true, if_false,
      ignoreLoop_nonspace c hc]
  · simp only [token_stream.ignore, hcond h, Bool.false_eq_true, if_false,
      ignoreLoop_space c hc]
  · unfold token_stream.ignore
    split <;> rfl

end

/-- C11 (witness): `putback` of `+` on a fresh stream over `1;`, then
`get()`. -/
theorem putback_then_get_witness :
    ({ (token_stream.over "1;" : token_stream Dbl) with
        buffer := token.ofChar '+', full := true } : token_stream Dbl).get =
      .ok (token.ofChar '+')
        { (token_stream.over "1;" : token_stream Dbl) with buffer := token.ofChar '+' } :=
  (putback_then_get (token_stream.over "1;" : token_stream Dbl) (token.ofChar '+')
    (by decide!)).2.1

/-- C12 (witness): `q2` is read as the quit token, then the number 2. -/
theorem get_punctuation_witness :
    (token_stream.over " q2" : token_stream Dbl).get =
      .ok (token.ofChar 'q')
        { (token_stream.over " q2" : token_stream Dbl) with input := "2".data } ∧
    ({ (token_stream.over " q2" : token_stream Dbl) with input := "2".data } :
        token_stream Dbl).get =
      .ok (token.ofDouble (Dbl.ofNat 2))
        { (token_stream.over " q2" : token_stream Dbl) with input := [] } :=
  ⟨(get_punctuation (token_stream.over " q2" : token_stream Dbl) 'q' "2".data (by decide!)
      (by decide!) (Or.inl (by decide!))).1,
    by decide!⟩

/-- C13 (witness): on ` rate_2+1` the identifier is `rate_2`, and `+1` is
left to read. -/
theorem get_identifier_witness :
    (token_stream.over " rate_2+1" : token_stream Dbl).get =
      .ok (token.named name (String.mk ('r' :: "ate_2+1".data.takeWhile identChar)))
        { (token_stream.over " rate_2+1" : token_stream Dbl) with
          input := "ate_2+1".data.dropWhile identChar } ∧
    String.mk ('r' :: "ate_2+1".data.takeWhile identChar) = "rate_2" ∧
    "ate_2+1".data.dropWhile identChar = "+1".data :=
  ⟨(get_identifier (token_stream.over " rate_2+1" : token_stream Dbl) 'r' "ate_2+1".data
      (by decide!) (by decide!) (by decide!) (by decide!)).1,
    by decide!, by decide!⟩

/-- C14 (witness): `#`, `_` and `,` are bad tokens. -/
theorem get_bad_token_witness :
    (token_stream.over "#1" : token_stream Dbl).get =
      .error ("Bad token: " ++ String.singleton '#')
        { (token_stream.over "#1" : token_stream Dbl) with input := "1".data } ∧
    (token_stream.over "_x" : token_stream Dbl).get =
      .error ("Bad token: " ++ String.singleton '_')
        { (token_stream.over "_x" : token_stream Dbl) with input := "x".data } ∧
    (token_stream.over ", 2" : token_stream Dbl).get =
      .error ("Bad token: " ++ String.singleton ',')
        { (token_stream.over ", 2" : token_stream Dbl) with input := " 2".data } :=
  ⟨(get_bad_token (token_stream.over "#1" : token_stream Dbl) '#' "1".data (by decide!)
      (by decide!)).1 (by decide!) (by decide!) (by decide!) (by decide!),
    (get_bad_token (token_stream.over "_x" : token_stream Dbl) '_' "x".data (by decide!)
      (by decide!)).1 (by decide!) (by decide!) (by decide!) (by decide!),
    (get_bad_token (token_stream.over ", 2" : token_stream Dbl) ',' " 2".data (by decide!)
      (by decide!)).1 (by decide!) (by decide!) (by decide!) (by decide!)⟩

/-- C15 (counterexample): on a stream with an empty buffer over `a b;`,
`ignore` of the space character uses up all the characters, while the
characters after the first space are `b;`. -/
theorem ignore_spec_counterexample :
    (token_stream.over "a b;" : token_stream Dbl).full = false ∧
    ((token_stream.over "a b;" : token_stream Dbl).ignore ' ').input = [] ∧
    afterFirst ' ' (token_stream.over "a b;" : token_stream Dbl).input = "b;".data ∧
    ((token_stream.over "a b;" : token_stream Dbl).ignore ' ').input ≠
      afterFirst ' ' (token_stream.over "a b;" : token_stream Dbl).input :=
  ⟨by decide!, by decide!, by decide!, by decide!⟩

section
variable {D : Type} [DoubleOps D]

/-! ## The buffer never overflows -/

theorem Quiet.chain {σ α β : Type} {x : Res σ α} {k : α → σ → Res σ β} (hx : Quiet x)
    (hk : ∀ v s1, x = .ok v s1 → Quiet (k v s1)) : Quiet (x.bind k) := by
  cases x with
  | ok v s1 => exact hk v s1 rfl
  | error msg s1 => exact hx
  | undef s1 => trivial
  | fuel => trivial

theorem Quiet.get_then {β : Type} {s : Sys D} {k : token D → Sys D → Res (Sys D) β}
    (h : ∀ t ts1, s.ts.get = .ok t ts1 → Quiet (k t { s with ts := ts1 })) :
    Quiet (s.get.bind k) := by
  rcases Sys.get_cases s with ⟨t, ts1, hg, hs⟩ | ⟨c, s1, hs⟩ | ⟨s1, hs⟩
  · rw [hs]; exact h t ts1 hg
  · rw [hs]
    show ("Bad token: " ++ String.singleton c).data.head? ≠ some 'p'
    simp [String.data_append]
  · rw [hs]; trivial

/-- The exit of a loop never overflows the buffer: the `putback` comes right
after a `get()`. -/
theorem Quiet.putback_after_get {s : Sys D} {t : token D} {ts1 : token_stream D}
    (hg : s.ts.get = .ok t ts1) (left : D) :
    Quiet ((({ s with ts := ts1 } : Sys D).putback t).bind fun _ s2 => .ok left s2) := by
  rw [Sys.putback_ok (get_ok_not_full hg)]
  trivial

/-- No grammar function throws the exception of `putback`. -/
theorem quiet_all (n : Nat) :
    (∀ s : Sys D, Quiet (primary n s)) ∧
    (∀ (left : D) (s : Sys D), Quiet (termLoop n left s)) ∧
    (∀ s : Sys D, Quiet (term n s)) ∧
    (∀ (left : D) (s : Sys D), Quiet (expressionLoop n left s)) ∧
    (∀ s : Sys D, Quiet (expression n s)) := by
  induction n with
  | zero =>
    refine ⟨?_, ?_, ?_, ?_, ?_⟩ <;> intros <;>
      simp only [primary, termLoop, term, expressionLoop, expression] <;> trivial
  | succ n ih =>
    obtain ⟨hp, htl, ht, hel, he⟩ := ih
    refine ⟨?_, ?_, ?_, ?_, ?_⟩
    · intro s
      rw [primary]
      refine Quiet.get_then fun t ts1 hg => ?_
      split
      · trivial
      · split
        · refine Quiet.get_then (s := { s with ts := ts1 }) fun next ts2 hg2 => ?_
          split
          · exact Quiet.chain (he _) fun _ _ _ => trivial
          · rw [Sys.putback_ok (get_ok_not_full hg2)]
            simp only [Res.bind]
            split
            · trivial
            · show ("Undefined variable: " ++ t.name).data.head? ≠ some 'p'
              simp [String.data_append]
        · split
          · exact Quiet.chain (hp _) fun _ _ _ => trivial
          · split
            · refine Quiet.chain (he _) fun d s2 _ => ?_
              refine Quiet.get_then fun t2 ts3 _ => ?_
              split
              · show ("')' expected" : String).data.head? ≠ some 'p'
                decide
              · trivial
            · show ("Primary expected" : String).data.head? ≠ some 'p'
              decide
    · intro left s
      rw [termLoop]
      refine Quiet.get_then fun t ts1 hg => ?_
      split
      · exact Quiet.chain (hp _) fun _ _ _ => htl _ _
      · split
        · refine Quiet.chain (hp _) fun _ _ _ => ?_
          split
          · trivial
          · exact htl _ _
        · exact Quiet.putback_after_get hg left
    · intro s
      rw [term]
      exact Quiet.chain (hp _) fun _ _ _ => htl _ _
    · intro left s
      rw [expressionLoop]
      refine Quiet.get_then fun t ts1 hg => ?_
      split
      · exact Quiet.chain (ht _) fun _ _ _ => hel _ _
      · split
        · exact Quiet.chain (ht _) fun _ _ _ => hel _ _
        · split
          · refine Quiet.chain (hp _) fun _ _ _ => ?_
            split
            · show ("modulo by zero" : String).data.head? ≠ some 'p'
              decide
            · exact hel _ _
          · exact Quiet.putback_after_get hg left
    · intro s
      rw [expression]
      exact Quiet.chain (ht _) fun _ _ _ => hel _ _

/-- The loop that skips the print commands returns with the buffer empty,
and never throws the exception of `putback`. -/
theorem skipPrints_quiet (n : Nat) (t : token D) (s : Sys D) (hf : s.ts.full = false) :
    QuietEmpty (skipPrints n t s) := by
  induction n generalizing t s with
  | zero => simp only [skipPrints]; trivial
  | succ n ih =>
    rw [skipPrints]
    split
    · rcases Sys.get_cases s with ⟨t1, ts1, hg, hs⟩ | ⟨c, s1, hs⟩ | ⟨s1, hs⟩
      · rw [hs]
        exact ih t1 _ (get_ok_not_full hg)
      · rw [hs]
        show ("Bad token: " ++ String.singleton c).data.head? ≠ some 'p'
        simp [String.data_append]
      · rw [hs]; trivial
    · exact hf

/-- The `try` block of `calculate` never throws the exception of `putback`. -/
theorem tryBlock_quiet (n : Nat) (s : Sys D) : Quiet (tryBlock n s) := by
  unfold tryBlock
  refine Quiet.get_then fun t ts1 hg => ?_
  have h1 := skipPrints_quiet n t
    ({ s with cout := s.cout ++ [Out.text prompt], ts := ts1 } : Sys D) (get_ok_not_full hg)
  cases hsk : skipPrints n t
      ({ s with cout := s.cout ++ [Out.text prompt], ts := ts1 } : Sys D) with
  | ok t1 s2 =>
    rw [hsk] at h1
    simp only [Res.bind]
    split
    · trivial
    · rw [Sys.putback_ok h1]
      exact Quiet.chain ((quiet_all n).2.2.2.2 _) fun _ _ _ => trivial
  | error msg s2 =>
    rw [hsk] at h1
    exact h1
  | undef s2 => trivial
  | fuel => trivial

theorem Quiet.not_overflow {σ α : Type} {r : Res σ α} (h : Quiet r) (s1 : σ) :
    r ≠ .error overflowText s1 := by
  rintro rfl
  exact h (by decide)

/-- The function `calculate` never ends by a throw. -/
theorem calculate_no_throw (n : Nat) (s : Sys D) (msg : String) (s1 : Sys D) :
    calculate n s ≠ .error msg s1 := by
  induction n generalizing s with
  | zero => simp [calculate]
  | succ n ih =>
    rw [calculate]
    split
    · simp
    · exact ih _
    · exact ih _
    · simp
    · simp

/-- C17: whatever the characters to read and whatever the buffer holds at
the start, `primary`, `term`, `expression` and the `try` block of `calculate`
never throw the exception of `putback` (each `putback` they perform comes
right after a `get()`, which leaves the buffer empty), and `calculate` never
ends by a throw. -/
theorem putback_never_overflows (n : Nat) (s s1 : Sys D) :
    primary n s ≠ .error "putback() into a full buffer" s1 ∧
    term n s ≠ .error "putback() into a full buffer" s1 ∧
    expression n s ≠ .error "putback() into a full buffer" s1 ∧
    tryBlock n s ≠ .error "putback() into a full buffer" s1 ∧
    (∀ msg, calculate n s ≠ .error msg s1) :=
  ⟨((quiet_all n).1 s).not_overflow s1, ((quiet_all n).2.2.1 s).not_overflow s1,
    ((quiet_all n).2.2.2.2 s).not_overflow s1, (tryBlock_quiet n s).not_overflow s1,
    fun msg => calculate_no_throw n s msg s1⟩

end

/-- C18 (the code at the failing input): on `10 / 0 * 2;` the function
`term` returns plus infinity from inside the `/` branch: the buffer is empty,
and `* 2` has not been read, the next token being `*`.  In the session
`10 / 0 * 2; q` the value printed is that infinity, and the rest of the
statement is then reported as a statement without a primary. -/
theorem term_returns_early :
    term 3 (Sys.start "10 / 0 * 2;" : Sys Dbl) = .ok Dbl.pinf earlyReturn ∧
    earlyReturn.ts.full = false ∧
    earlyReturn.ts.get = .ok (token.ofChar '*') { earlyReturn.ts with input := " 2;".data } ∧
    calculate 8 (Sys.start "10 / 0 * 2; q" : Sys Dbl) = .ok () earlyReturnEnd ∧
    earlyReturnEnd.cerr = ["Error: Division by zero.\n", "Primary expected\n"] :=
  ⟨by decide!, by decide!, by decide!, by decide!, by decide!⟩

section
variable {D : Type} [DoubleOps D]

/-! ## The remainder operator -/

theorem Res.ok_bind {σ α β : Type} (a : α) (s : σ) (k : α → σ → Res σ β) :
    (Res.ok a s).bind k = k a s := rfl

/-- C19: in the loop of `expression`, for every running value `left`, when
the next token is `%` and `primary` on what follows returns a value `d` for
which `d == 0` does not hold, the loop goes on with the running value
`fmod(left, d)` from the state in which `primary` returned: the right operand
is that one primary.  Hence for numbers `a`, `b`, `c` with `c == 0` false and
a token `tk` that is not a binary operator, `a + b % c tk` evaluates to
`fmod(a + b, c)`. -/
theorem expressionLoop_remainder (n : Nat) (left : D) (s s1 s2 : Sys D) (t : token D) (d : D)
    (hg : s.get = .ok t s1) (hk : t.kind = '%') (hp : primary n s1 = .ok d s2)
    (hz : DoubleOps.eqZero d = false) :
    expressionLoop (n + 1) left s = expressionLoop n (DoubleOps.fmod left d) s2 ∧
    (∀ (s0 : Sys D) (a b c : D) (tk : token D) (rest : List Char),
      DoubleOps.eqZero c = false →
      Reads s0.ts [token.ofDouble a, token.ofChar '+', token.ofDouble b, token.ofChar '%',
        token.ofDouble c, tk] rest → tk.kind ∉ operatorKinds →
      ∀ m, 6 ≤ m → expression m s0 =
        .ok (DoubleOps.fmod (DoubleOps.add a b) c)
          { s0 with ts := { full := true, buffer := tk, input := rest } }) := by
  refine ⟨?_, ?_⟩
  · rw [expressionLoop_mod n left hg hk, hp]
    simp [Res.bind, hz]
  · intro s0 a b c tk rest hc hr hko m hm
    simp only [operatorKinds, List.mem_cons, List.mem_singleton, List.not_mem_nil, or_false,
      not_or] at hko
    obtain ⟨k1, k2, k3, k4, k5⟩ := hko
    obtain ⟨ts1, g1, f1, hr⟩ := Reads_cons_sys hr
    rw [Reads_empty f1] at hr
    obtain ⟨c1, l1, hr⟩ := Lexes_cons.1 hr
    obtain ⟨c2, l2, hr⟩ := Lexes_cons.1 hr
    obtain ⟨c3, l3, hr⟩ := Lexes_cons.1 hr
    obtain ⟨c4, l4, hr⟩ := Lexes_cons.1 hr
    obtain ⟨c5, l5, hr⟩ := Lexes_cons.1 hr
    have hr : c5 = rest := hr
    subst hr
    obtain ⟨f, bf, inp⟩ := ts1
    simp only at f1 l1
    subst f1
    have h6 : expression 6 s0 = .ok (DoubleOps.fmod (DoubleOps.add a b) c)
        { s0 with ts := { full := true, buffer := tk, input := c5 } } := by
      rw [expression, term, primary_number 3 g1 rfl, Res.ok_bind]
      rw [termLoop_exit_lex s0 bf _ inp c1 _ l1 (by simp [token.ofChar])
        (by simp [token.ofChar]) 3, Res.ok_bind]
      rw [expressionLoop_add 4 _ (Sys.get_buffer s0 _ _) rfl]
      rw [term, primary_number 2 (Sys.get_lex rfl l2) rfl, Res.ok_bind]
      rw [termLoop_exit_lex s0 _ _ c2 c3 _ l3 (by simp [token.ofChar])
        (by simp [token.ofChar]) 2, Res.ok_bind]
      rw [expressionLoop_mod 3 _ (Sys.get_buffer s0 _ _) rfl]
      rw [primary_number 2 (Sys.get_lex rfl l4) rfl, Res.ok_bind]
      simp only [token.ofDouble, hc, Bool.false_eq_true, if_false]
      rw [expressionLoop_exit_get 2 _ (Sys.get_lex rfl l5) k1 k2 k5]
    rw [expression_mono hm s0 (by rw [h6]; simp), h6]

end

/-- C19 (witness): from the running value 7, `% 2` goes on with
`fmod(7, 2)`; and `3 + 4 % 2;` evaluates to `fmod(3 + 4, 2)`, which is 1 and
not `3 + fmod(4, 2)`, which is 3. -/
theorem expressionLoop_remainder_witness :
    expressionLoop (1 + 1) (Dbl.ofNat 7) (Sys.start " % 2;" : Sys Dbl) =
      expressionLoop 1 (DoubleOps.fmod (Dbl.ofNat 7) (Dbl.ofNat 2)) (Sys.start ";") ∧
    (∀ m, 6 ≤ m → expression m (Sys.start "3 + 4 % 2;" : Sys Dbl) =
      .ok (DoubleOps.fmod (DoubleOps.add (Dbl.ofNat 3) (Dbl.ofNat 4)) (Dbl.ofNat 2))
        { (Sys.start "3 + 4 % 2;" : Sys Dbl) with
          ts := { full := true, buffer := token.ofChar ';', input := [] } }) ∧
    DoubleOps.fmod (DoubleOps.add (Dbl.ofNat 3) (Dbl.ofNat 4)) (Dbl.ofNat 2) = Dbl.ofNat 1 ∧
    DoubleOps.add (Dbl.ofNat 3) (DoubleOps.fmod (Dbl.ofNat 4) (Dbl.ofNat 2)) = Dbl.ofNat 3 :=
  ⟨(expressionLoop_remainder 1 (Dbl.ofNat 7) (Sys.start " % 2;") (Sys.start " 2;")
      (Sys.start ";") (token.ofChar '%') (Dbl.ofNat 2) (by decide!) (by decide!) (by decide!)
      (by decide!)).1,
    (expressionLoop_remainder 1 (Dbl.ofNat 7) (Sys.start " % 2;") (Sys.start " 2;")
      (Sys.start ";") (token.ofChar '%') (Dbl.ofNat 2) (by decide!) (by decide!) (by decide!)
      (by decide!)).2 (Sys.start "3 + 4 % 2;") (Dbl.ofNat 3) (Dbl.ofNat 4) (Dbl.ofNat 2)
      (token.ofChar ';') [] (by decide!) (Reads_of_readsB (by decide!)) (by decide!),
    by decide!, by decide!⟩

section
variable {D : Type} [DoubleOps D]

/-! ## The variables change by assignment only -/

theorem Sys.Frame.same {E : Type} (s s1 : Sys E) (hi : s1.ts.input = s.ts.input)
    (hv : s1.vars = s.vars) : s.Frame s1 :=
  ⟨⟨[], by simp [hi], fun _ => hv⟩, fun k hk => by rw [hv]; exact hk⟩

theorem Sys.Frame.compose {E : Type} {a b c : Sys E} (h1 : a.Frame b) (h2 : b.Frame c) :
    a.Frame c := by
  obtain ⟨⟨w1, hi1, hv1⟩, hk1⟩ := h1
  obtain ⟨⟨w2, hi2, hv2⟩, hk2⟩ := h2
  refine ⟨⟨w1 ++ w2, by rw [hi1, hi2, List.append_assoc], fun hw => ?_⟩,
    fun k hk => hk2 k (hk1 k hk)⟩
  simp only [List.mem_append, not_or] at hw
  rw [hv2 hw.2, hv1 hw.1]

/-- What `lex` uses up is a prefix of the characters, and it holds `=` when
the token is the assignment command. -/
theorem lex_prefix (hx : LawfulExtract D) {cs cs1 : List Char} {t : token D}
    (h : lex cs = .ok t cs1) : ∃ w, cs = w ++ cs1 ∧ (t.kind = assign → assign ∈ w) := by
  obtain ⟨w0, -, hcs⟩ := skipws_decomp cs
  unfold lex readChar at h
  cases hs : skipws cs with
  | nil => rw [hs] at h; simp at h
  | cons ch rest =>
    rw [hs] at h hcs
    simp only at h
    split at h
    · rename_i hp
      simp only [Res.ok.injEq] at h
      obtain ⟨rfl, rfl⟩ := h
      refine ⟨w0 ++ [ch], by rw [hcs]; simp, fun hk => ?_⟩
      simp only [token.ofChar] at hk
      rw [hk] at hp
      exact absurd hp (by decide)
    · split at h
      · cases he : (DoubleOps.extract (ch :: rest) : Option (D × List Char)) with
        | none =>
          rw [he] at h
          simp only [Res.ok.injEq] at h
          obtain ⟨rfl, rfl⟩ := h
          exact ⟨cs, by simp, fun hk => absurd hk (by simp [token.ofDouble, number, assign])⟩
        | some p =>
          obtain ⟨v, r1⟩ := p
          rw [he] at h
          simp only [Res.ok.injEq] at h
          obtain ⟨rfl, rfl⟩ := h
          obtain ⟨w1, -, h1⟩ := hx _ _ _ he
          exact ⟨w0 ++ w1, by rw [hcs, h1, List.append_assoc],
            fun hk => absurd hk (by simp [token.ofDouble, number, assign])⟩
      · split at h
        · simp only [Res.ok.injEq] at h
          obtain ⟨rfl, rfl⟩ := h
          refine ⟨w0 ++ ch :: rest.takeWhile identChar, ?_, fun hk =>
            absurd hk (by simp [token.named, name, assign])⟩
          rw [hcs]
          simp [List.takeWhile_append_dropWhile]
        · split at h
          · rename_i heq
            simp only [Res.ok.injEq] at h
            obtain ⟨rfl, rfl⟩ := h
            exact ⟨w0 ++ [ch], by rw [hcs]; simp, fun _ => by simp [heq, assign]⟩
          · simp at h

/-- What `lex` has used up when it throws is a prefix of the characters. -/
theorem lex_error_prefix {cs cs1 : List Char} {msg : String}
    (h : (lex cs : Res (List Char) (token D)) = .error msg cs1) : ∃ w, cs = w ++ cs1 := by
  obtain ⟨w0, -, hcs⟩ := skipws_decomp cs
  unfold lex readChar at h
  cases hs : skipws cs with
  | nil => rw [hs] at h; simp at h
  | cons ch rest =>
    rw [hs] at h hcs
    simp only at h
    split at h
    · simp at h
    · split at h
      · cases he : (DoubleOps.extract (ch :: rest) : Option (D × List Char)) <;>
          rw [he] at h <;> simp at h
      · split at h
        · simp at h
        · split at h
          · simp at h
          · simp only [Res.error.injEq] at h
            obtain ⟨-, rfl⟩ := h
            exact ⟨w0 ++ [ch], by rw [hcs]; simp⟩

/-- A `get()` frames the session, whatever its outcome. -/
theorem Framed.of_get (hx : LawfulExtract D) (s : Sys D) : Framed s s.get := by
  unfold Sys.get
  cases hf : s.ts.full with
  | true =>
    rw [get_full hf]
    exact Sys.Frame.same _ _ rfl rfl
  | false =>
    rw [get_empty hf]
    cases hl : (lex s.ts.input : Res (List Char) (token D)) with
    | ok t cs1 =>
      obtain ⟨w, hw, -⟩ := lex_prefix hx hl
      exact ⟨⟨w, hw, fun _ => rfl⟩, fun k hk => hk⟩
    | error msg cs1 =>
      obtain ⟨w, hw⟩ := lex_error_prefix hl
      exact ⟨⟨w, hw, fun _ => rfl⟩, fun k hk => hk⟩
    | undef cs1 => trivial
    | fuel => trivial

/-- A `get()` from an empty buffer that returns the assignment command has
used up a `=`. -/
theorem get_assign_prefix (hx : LawfulExtract D) {ts ts1 : token_stream D} {t : token D}
    (hf : ts.full = false) (hg : ts.get = .ok t ts1) (hk : t.kind = assign) :
    ∃ w, ts.input = w ++ ts1.input ∧ assign ∈ w := by
  rw [get_empty hf] at hg
  cases hl : (lex ts.input : Res (List Char) (token D)) <;> rw [hl] at hg <;>
    simp [Res.lift] at hg
  obtain ⟨rfl, rfl⟩ := hg
  obtain ⟨w, hw, hm⟩ := lex_prefix hx hl
  exact ⟨w, hw, hm hk⟩

theorem Framed.widen {E α : Type} {a b : Sys E} {r : Res (Sys E) α} (hab : a.Frame b)
    (h : Framed b r) : Framed a r := by
  cases r with
  | ok v s1 => exact Sys.Frame.compose hab h
  | error msg s1 => exact Sys.Frame.compose hab h
  | undef s1 => trivial
  | fuel => trivial

theorem Framed.thenAll {E α β : Type} {a : Sys E} {x : Res (Sys E) α}
    {k : α → Sys E → Res (Sys E) β} (hx : Framed a x)
    (hk : ∀ v s1, x = .ok v s1 → Framed s1 (k v s1)) : Framed a (x.bind k) := by
  cases x with
  | ok v s1 => exact Framed.widen hx (hk v s1 rfl)
  | error msg s1 => exact hx
  | undef s1 => trivial
  | fuel => trivial

theorem Framed.get_andThen (hx : LawfulExtract D) {β : Type} {s : Sys D}
    {k : token D → Sys D → Res (Sys D) β}
    (h : ∀ t ts1, s.ts.get = .ok t ts1 → Framed { s with ts := ts1 } (k t { s with ts := ts1 })) :
    Framed s (s.get.bind k) := by
  refine Framed.thenAll (Framed.of_get hx s) fun t s1 hs => ?_
  obtain ⟨ts1, hg, rfl⟩ := Sys.get_ok_iff.1 hs
  exact h t ts1 hg

theorem Vars.find_set_isSome {E : Type} (m : Vars E) (k j : String) (v : E)
    (h : (m.find j).isSome = true) : ((m.set k v).find j).isSome = true := by
  by_cases hj : j = k
  · rw [hj, Vars.find_set_same]; rfl
  · rw [Vars.find_set_other m k j v hj]; exact h

/-- The assignment branch of `primary` is framed: it has used up a `=`. -/
theorem Framed.assignment {E : Type} (s1 s2 : Sys E) {r : Res (Sys E) E} (k : String)
    (w : List Char) (hw : s1.ts.input = w ++ s2.ts.input) (hm : assign ∈ w)
    (hv : s2.vars = s1.vars) (h : Framed s2 r) :
    Framed s1 (r.bind fun value s3 => .ok value { s3 with vars := s3.vars.set k value }) := by
  cases r with
  | ok v s3 =>
    obtain ⟨⟨w3, hi3, -⟩, hk3⟩ := h
    refine ⟨⟨w ++ w3, ?_, fun hn => ?_⟩, fun j hj => ?_⟩
    · show s1.ts.input = (w ++ w3) ++ s3.ts.input
      rw [hw, hi3, List.append_assoc]
    · exact absurd (List.mem_append_left _ hm) hn
    · exact Vars.find_set_isSome _ _ _ _ (hk3 j (by rw [hv]; exact hj))
  | error msg s3 =>
    exact Sys.Frame.compose ⟨⟨w, hw, fun _ => hv⟩, fun j hj => by rw [hv]; exact hj⟩ h
  | undef s3 => trivial
  | fuel => trivial

/-- The exit of a loop is framed. -/
theorem Framed.putback_exit {s : Sys D} {t : token D} {ts1 : token_stream D}
    (hg : s.ts.get = .ok t ts1) (left : D) :
    Framed ({ s with ts := ts1 } : Sys D)
      ((({ s with ts := ts1 } : Sys D).putback t).bind fun _ s2 => .ok left s2) := by
  rw [Sys.putback_ok (get_ok_not_full hg)]
  exact Sys.Frame.same _ _ rfl rfl

/-- Every grammar function frames the session. -/
theorem framed_all (hx : LawfulExtract D) (n : Nat) :
    (∀ s : Sys D, Framed s (primary n s)) ∧
    (∀ (left : D) (s : Sys D), Framed s (termLoop n left s)) ∧
    (∀ s : Sys D, Framed s (term n s)) ∧
    (∀ (left : D) (s : Sys D), Framed s (expressionLoop n left s)) ∧
    (∀ s : Sys D, Framed s (expression n s)) := by
  induction n with
  | zero =>
    refine ⟨?_, ?_, ?_, ?_, ?_⟩ <;> intros <;>
      simp only [primary, termLoop, term, expressionLoop, expression] <;> trivial
  | succ n ih =>
    obtain ⟨hp, htl, ht, hel, he⟩ := ih
    refine ⟨?_, ?_, ?_, ?_, ?_⟩
    · intro s
      rw [primary]
      refine Framed.get_andThen hx fun t ts1 hg => ?_
      split
      · exact Sys.Frame.same _ _ rfl rfl
      · split
        · have hfr := Framed.of_get hx ({ s with ts := ts1 } : Sys D)
          rcases Sys.get_cases ({ s with ts := ts1 } : Sys D) with
            ⟨next, ts2, hg2, hs⟩ | ⟨c, s2, hs⟩ | ⟨s2, hs⟩
          · rw [hs] at hfr ⊢
            rw [Res.ok_bind]
            split
            · rename_i hk2
              obtain ⟨w, hw, hm⟩ := get_assign_prefix hx (get_ok_not_full hg) hg2 hk2
              exact Framed.assignment ({ s with ts := ts1 } : Sys D) ({ s with ts := ts2 } : Sys D)
                t.name w hw hm rfl (he _)
            · rw [Sys.putback_ok (get_ok_not_full hg2), Res.ok_bind]
              have h2 : Sys.Frame ({ s with ts := ts1 } : Sys D)
                  ({ s with ts := { ts2 with buffer := next, full := true } } : Sys D) :=
                Sys.Frame.compose hfr (Sys.Frame.same _ _ rfl rfl)
              split
              · exact h2
              · exact h2
          · rw [hs] at hfr ⊢
            exact hfr
          · rw [hs]
            trivial
        · split
          · exact Framed.thenAll (hp _) fun v s2 _ => Sys.Frame.same _ _ rfl rfl
          · split
            · refine Framed.thenAll (he _) fun d s2 _ => ?_
              refine Framed.get_andThen hx fun t2 ts3 _ => ?_
              split
              · exact Sys.Frame.same _ _ rfl rfl
              · exact Sys.Frame.same _ _ rfl rfl
            · exact Sys.Frame.same _ _ rfl rfl
    · intro left s
      rw [termLoop]
      refine Framed.get_andThen hx fun t ts1 hg => ?_
      split
      · exact Framed.thenAll (hp _) fun _ _ _ => htl _ _
      · split
        · refine Framed.thenAll (hp _) fun v s2 _ => ?_
          split
          · exact Sys.Frame.same _ _ rfl rfl
          · exact htl _ _
        · exact Framed.putback_exit hg left
    · intro s
      rw [term]
      exact Framed.thenAll (hp _) fun _ _ _ => htl _ _
    · intro left s
      rw [expressionLoop]
      refine Framed.get_andThen hx fun t ts1 hg => ?_
      split
      · exact Framed.thenAll (ht _) fun _ _ _ => hel _ _
      · split
        · exact Framed.thenAll (ht _) fun _ _ _ => hel _ _
        · split
          · refine Framed.thenAll (hp _) fun v s2 _ => ?_
            split
            · exact Sys.Frame.same _ _ rfl rfl
            · exact hel _ _
          · exact Framed.putback_exit hg left
    · intro s
      rw [expression]
      exact Framed.thenAll (ht _) fun _ _ _ => hel _ _

/-- C20: for every outcome of `expression` that is a return or a throw, the
characters used up are a prefix of the characters at the start; when that
prefix holds no `=` (no assignment command was read) the table of variables
at the end is the table at the start; and in every case each name defined at
the start is defined at the end. -/
theorem environment_frame (hx : LawfulExtract D) (n : Nat) (s s1 : Sys D)
    (hf : (expression n s).final = some s1) :
    (∃ w, s.ts.input = w ++ s1.ts.input ∧ (assign ∉ w → s1.vars = s.vars)) ∧
    ∀ k, (s.vars.find k).isSome = true → (s1.vars.find k).isSome = true := by
  have h := (framed_all hx n).2.2.2.2 s
  cases hr : expression n s with
  | ok v s2 =>
    rw [hr] at h hf
    simp only [Res.final, Option.some.injEq] at hf
    subst hf
    exact h
  | error msg s2 =>
    rw [hr] at h hf
    simp only [Res.final, Option.some.injEq] at hf
    subst hf
    exact h
  | undef s2 => rw [hr] at hf; simp [Res.final] at hf
  | fuel => rw [hr] at hf; simp [Res.final] at hf

end

/-- C20 (witness): `expression` on `2 + 3;`, which returns, and on `2 + y;`,
which throws; neither reads a `=`. -/
theorem environment_frame_witness :
    ((∃ w, (Sys.start "2 + 3;" : Sys Dbl).ts.input =
        w ++ (Sys.buffered (token.ofChar ';') "" : Sys Dbl).ts.input ∧
        (assign ∉ w → (Sys.buffered (token.ofChar ';') "" : Sys Dbl).vars =
          (Sys.start "2 + 3;" : Sys Dbl).vars)) ∧
      ∀ k, ((Sys.start "2 + 3;" : Sys Dbl).vars.find k).isSome = true →
        ((Sys.buffered (token.ofChar ';') "" : Sys Dbl).vars.find k).isSome = true) ∧
    ((∃ w, (Sys.start "2 + y;" : Sys Dbl).ts.input =
        w ++ (Sys.buffered (token.ofChar ';') "" : Sys Dbl).ts.input ∧
        (assign ∉ w → (Sys.buffered (token.ofChar ';') "" : Sys Dbl).vars =
          (Sys.start "2 + y;" : Sys Dbl).vars)) ∧
      ∀ k, ((Sys.start "2 + y;" : Sys Dbl).vars.find k).isSome = true →
        ((Sys.buffered (token.ofChar ';') "" : Sys Dbl).vars.find k).isSome = true) :=
  ⟨environment_frame Dbl.lawfulExtract 5 (Sys.start "2 + 3;")
      (Sys.buffered (token.ofChar ';') "") (by decide!),
    environment_frame Dbl.lawfulExtract 5 (Sys.start "2 + y;")
      (Sys.buffered (token.ofChar ';') "") (by decide!)⟩

section
variable {D : Type} [DoubleOps D]

/-! ## What a return of `expression` has read -/

/-- The token sequence of an expression of `Ast` is a full expression. -/
theorem Ast.derives {l : Level} (e : Ast D l) : Derives l e.tokens := by
  induction e with
  | num v => exact .num _ rfl
  | paren e ih => exact .parens _ _ _ rfl ih rfl
  | neg p ih => exact .minus _ _ rfl ih
  | ofPrim p ih => exact .ofPrim _ ih
  | mul t p iht ihp => exact .times _ _ _ iht rfl ihp
  | div t p iht ihp => exact .over _ _ _ iht rfl ihp
  | ofTerm t ih => exact .ofTerm _ ih
  | add e t ihe iht => exact .plus _ _ _ ihe rfl iht
  | sub e t ihe iht => exact .less _ _ _ ihe rfl iht

end

section
variable {D : Type} [DoubleOps D]

end

section
variable {D : Type} [DoubleOps D]

/-! ## Parentheses -/

end

end Calculator
